import Mathlib

set_option maxHeartbeats 1000000

/-!
Verification of the `acre` dynamic-environment resolver (`src/acre/core.py`).

Strings are modelled as lists of characters (`Str`), Python dicts as ordered
association lists (`Env`) with dict semantics (insertion order preserved,
assignment replaces the value in place, lookup by key).  The functions of
`acre.lib` (`partial_format`, `topological_sort`, `uniqify_ordered`,
`append_path`) are not part of the repository snapshot under `src/`; they are
modelled from the specification, as indicated in their doc comments.
-/

deriving instance DecidableEq for Except

namespace Acre

/-- Python strings, as lists of characters. -/
abbrev Str := List Char

/-- Convert a Lean string literal into the model's string type. -/
def str (s : String) : Str := s.data

/-- A Python dict from strings to strings: an ordered association list. -/
abbrev Env := List (Str × Str)

/-- Dict lookup (`d[k]` / `k in d`): value of the first pair whose key is `k`. -/
def envLookup (k : Str) : Env → Option Str
  | [] => none
  | (k', v) :: r => if k' = k then some v else envLookup k r

/-- Dict assignment `d[k] = v`: replace the value in place if the key is
present (keeping its insertion position), otherwise append a new pair. -/
def dictSet (k v : Str) : Env → Env
  | [] => [(k, v)]
  | (k', v') :: r => if k' = k then (k', v) :: r else (k', v') :: dictSet k v r

/-- Dict removal `d.pop(k)`: drop the first pair whose key is `k`. -/
def dictPop (k : Str) : Env → Env
  | [] => []
  | (k', v') :: r => if k' = k then r else (k', v') :: dictPop k r

/-- Keys of a dict, in insertion order. -/
def envKeys (env : Env) : List Str := env.map Prod.fst

/-! ### The placeholder scanner

`core.py` extracts placeholder names with `re.findall` applied to the
non-greedy single-brace pattern (line 49): a match starts at a `{`, its group
is the shortest non-empty run of non-newline characters that is followed by a
`}`, and scanning resumes after that `}`. -/

/-- Split a string at the first `}`, failing if a newline (which `.` does not
match) or the end of the string comes first.  Returns the characters before
the `}` and the characters after it. -/
def findClose : Str → Option (Str × Str)
  | [] => none
  | c :: r =>
    if c = '}' then some ([], r)
    else if c = '\n' then none
    else (findClose r).map (fun p => (c :: p.1, p.2))

/-- Scan a placeholder body: given the characters following a `{`, return the
shortest non-empty newline-free group closed by a `}`, and the rest of the
string after that `}` (the regex semantics of the non-greedy group). -/
def scanPH : Str → Option (Str × Str)
  | [] => none
  | c :: r => if c = '\n' then none else (findClose r).map (fun p => (c :: p.1, p.2))

/-- Fuelled worker for `findPlaceholders`; the fuel only serves to make the
recursion structural (each step consumes at least one character, so fuel equal
to the length of the string is always sufficient). -/
def fpF : Nat → Str → List Str
  | 0, _ => []
  | _ + 1, [] => []
  | f + 1, c :: rest =>
    if c = '{' then
      match scanPH rest with
      | some (n, r') => n :: fpF f r'
      | none => fpF f rest
    else fpF f rest

/-- All placeholder groups of a string, left to right: the model of
`re.findall` with the non-greedy brace pattern of `core.py` line 49. -/
def findPlaceholders (s : Str) : List Str := fpF s.length s

/-- Fuelled worker for `pformat` (same scan as `fpF`). -/
def pfF (data : Env) (missing : Option Str) : Nat → Str → Str
  | 0, s => s
  | _ + 1, [] => []
  | f + 1, c :: rest =>
    if c = '{' then
      match scanPH rest with
      | some (n, r') =>
        (match envLookup n data with
         | some v => v
         | none =>
           match missing with
           | some m => m
           | none => '{' :: (n ++ ['}'])) ++ pfF data missing f r'
      | none => c :: pfF data missing f rest
    else c :: pfF data missing f rest

/-- Modelled from the spec: `acre.lib.partial_format` (§4.1 Template
Formatter), which is not part of the snapshot under `src/`.  Every placeholder
`{name}` is replaced by `data`'s value for `name` when present; when absent it
is left verbatim, braces included, unless a `missing` replacement string is
supplied, in which case that string is substituted.  A single left-to-right
pass; placeholders are recognised by the same non-greedy brace scan as the
dependency extractor. -/
def pformat (t : Str) (data : Env) (missing : Option Str) : Str :=
  pfF data missing t.length t

/-! ### The topological sorter -/

/-- Result of the sorter: the acyclically ordered nodes and the nodes left
with unsatisfied dependencies (cycle participants and their dependents). -/
structure SortResult where
  sorted : List Str
  cyclic : List Str
deriving DecidableEq

/-- Increment the in-degree counter of `t` (first-seen insertion order). -/
def bumpCount (t : Str) : List (Str × Nat) → List (Str × Nat)
  | [] => [(t, 1)]
  | (x, n) :: r => if x = t then (x, n + 1) :: r else (x, n) :: bumpCount t r

/-- Append `t` to the out-edge list of `h` (first-seen insertion order). -/
def addTail (h t : Str) : List (Str × List Str) → List (Str × List Str)
  | [] => [(h, [t])]
  | (x, ts) :: r => if x = h then (x, ts ++ [t]) :: r else (x, ts) :: addTail h t r

/-- Collect, from the edge list, the in-degree counters and the out-edge
lists, both in first-seen order. -/
def collectGraph (pairs : List (Str × Str)) :
    List (Str × Nat) × List (Str × List Str) :=
  pairs.foldl (fun acc p => (bumpCount p.2 acc.1, addTail p.1 p.2 acc.2)) ([], [])

/-- Look up the in-degree counter of `t` (`none`: `t` is not a dependency). -/
def countOf (t : Str) : List (Str × Nat) → Option Nat
  | [] => none
  | (x, n) :: r => if x = t then some n else countOf t r

/-- Out-edges of `h` (empty when `h` has none recorded). -/
def tailsOf (h : Str) : List (Str × List Str) → List Str
  | [] => []
  | (x, ts) :: r => if x = h then ts else tailsOf h r

/-- Decrement the counter of `t` (saturating at zero; in reachable states the
counter is positive whenever it is decremented). -/
def decCount (t : Str) : List (Str × Nat) → List (Str × Nat)
  | [] => []
  | (x, n) :: r => if x = t then (x, n - 1) :: r else (x, n) :: decCount t r

/-- One dependency consumption: decrement `t`'s counter and, exactly when the
counter moves from one to zero, schedule `t`. -/
def stepT (acc : List (Str × Nat) × List Str) (t : Str) :
    List (Str × Nat) × List Str :=
  (decCount t acc.1, if countOf t acc.1 = some 1 then acc.2 ++ [t] else acc.2)

/-- Consume all out-edges of a processed node, collecting the newly freed
nodes in order. -/
def processTails (counts : List (Str × Nat)) (ts : List Str) :
    List (Str × Nat) × List Str :=
  ts.foldl stepT (counts, [])

/-- Sum of all in-degree counters (the termination measure). -/
def countsSum (counts : List (Str × Nat)) : Nat := (counts.map Prod.snd).sum

/-- Fuelled worker queue of the sorter: repeatedly emit the head of the queue,
consume its out-edges and enqueue the nodes whose in-degree reached zero.  The
fuel makes the recursion structural; each step strictly decreases the sum of
the counters plus the queue length, so the fuel supplied by
`topological_sort` is always sufficient. -/
def kahnLoopF (tails : List (Str × List Str)) :
    Nat → List (Str × Nat) → List Str → List Str → List Str × List (Str × Nat)
  | 0, counts, _, out => (out, counts)
  | _ + 1, counts, [], out => (out, counts)
  | f + 1, counts, h :: queue, out =>
    let pr := processTails counts (tailsOf h tails)
    kahnLoopF tails f pr.1 (queue ++ pr.2) (out ++ [h])

/-- Modelled from the spec: `acre.lib.topological_sort` (§4.3 Topological
Sorter), which is not part of the snapshot under `src/`.  A cycle-aware
Kahn-style sort over the edge list `(dependent, dependency)`: `sorted` lists
the drained nodes (dependents before the dependencies they reference, so that
`build` consumes it back to front, §4.4 step 4), seeded with the first-seen
dependents that are no one's dependency and extended in discovery order;
`cyclic` lists the nodes whose in-degree never reached zero (the nodes on or
downstream of a cycle), in first-seen order.  Ties are broken by first-seen
order among the input edges, making the result deterministic. -/
def topological_sort (pairs : List (Str × Str)) : SortResult :=
  let cg := collectGraph pairs
  let queue0 := (cg.2.map Prod.fst).filter (fun h => countOf h cg.1 = none)
  let pr := kahnLoopF cg.2 (countsSum cg.1 + queue0.length + 1) cg.1 queue0 []
  ⟨pr.1, (pr.2.filter (fun p => p.2 ≠ 0)).map Prod.fst⟩

/-! ### The resolver (`core.build`, lines 28–112) -/

/-- Errors raised by `build`: `CycleError` (carrying `result.cyclic`) and
`DynamicKeyClashError` (carrying the resolved key and its source key). -/
inductive BuildError where
  | cycle (nodes : List Str)
  | keyClash (newKey source : Str)
deriving DecidableEq

/-- Dependency collection of `build` (lines 47–56): for each pair in order,
every placeholder of the value, in order, except direct self-references,
yields the edge `(key, dependency)`. -/
def dependenciesOf (env : Env) : List (Str × Str) :=
  env.flatMap (fun kv =>
    ((findPlaceholders kv.2).filter (fun d => d ≠ kv.1)).map (fun d => (kv.1, d)))

/-- One iteration of the value-formatting loops (lines 70–73 and 77–80): if
`key` is present, format its value against a copy of the environment with the
key itself removed, and store the result back under the key. -/
def formatKey (env : Env) (key : Str) : Env :=
  match envLookup key env with
  | none => env
  | some v => dictSet key (pformat v (dictPop key env) none) env

/-- A value-formatting loop over a list of keys (lines 69–73 / 76–80). -/
def formatPass (env : Env) (ks : List Str) : Env := ks.foldl formatKey env

/-- The two value-formatting passes of `build` (lines 69–80): the sorted
nodes, back to front, then the cyclic nodes. -/
def valuePhase (env : Env) : Env :=
  let result := topological_sort (dependenciesOf env)
  formatPass (formatPass env result.sorted.reverse) result.cyclic

/-- The dynamic-key pass of `build` (lines 83–96): each key is formatted
against the full value-resolved environment; a resolved key already present
in the accumulator raises `DynamicKeyClashError` unless tolerated, and the
assignment `formatted[new_key] = value` is executed in either case. -/
def dynamicPhase (env : Env) (allow_key_clash : Bool) : Except BuildError Env :=
  go env []
where
  /-- Loop over the remaining pairs, with the accumulated `formatted` dict. -/
  go : Env → Env → Except BuildError Env
  | [], formatted => .ok formatted
  | (k, v) :: rest, formatted =>
    let nk := pformat k env none
    if (envLookup nk formatted).isSome then
      if allow_key_clash then go rest (dictSet nk v formatted)
      else .error (.keyClash nk k)
    else go rest (dictSet nk v formatted)

/-- Python whitespace, for `str.strip()` (ASCII fragment). -/
def isPySpace (c : Char) : Bool :=
  c = ' ' ∨ c = '\t' ∨ c = '\n' ∨ c = '\r' ∨ c = '\x0b' ∨ c = '\x0c'

/-- `p.strip()` is falsy exactly when every character is whitespace. -/
def isBlankSeg (s : Str) : Bool := s.all isPySpace

/-- Worker for `uniqify_ordered`, carrying the values seen so far. -/
def uniqAux (seen : List Str) : List Str → List Str
  | [] => []
  | x :: xs => if x ∈ seen then uniqAux seen xs else x :: uniqAux (x :: seen) xs

/-- Modelled from the spec: `acre.lib.uniqify_ordered` (§4.5 Path Normalizer),
which is not part of the snapshot under `src/`: order-preserving
de-duplication, keeping the first occurrence of each element. -/
def uniqify_ordered (l : List Str) : List Str := uniqAux [] l

/-- Python `value.split(sep)` for a single-character separator: the empty
string splits to one empty segment, and every separator occurrence opens a
new segment. -/
def splitOnChar (sep : Char) : Str → List Str
  | [] => [[]]
  | c :: rest =>
    if c = sep then [] :: splitOnChar sep rest
    else
      match splitOnChar sep rest with
      | [] => [[c]]
      | seg :: segs => (c :: seg) :: segs

/-- Python `sep.join(segments)` for a single-character separator. -/
def joinChar (sep : Char) : List Str → Str
  | [] => []
  | [s] => s
  | s :: rest => s ++ sep :: joinChar sep rest

/-- The cleanup of one value (lines 100–110): split on the separator, keep
unique entries in order, drop the segments that strip to nothing, rejoin. -/
def cleanupValue (sep : Char) (v : Str) : Str :=
  joinChar sep
    ((uniqify_ordered (splitOnChar sep v)).filter (fun p => !isBlankSeg p))

/-- The cleanup loop of `build` (lines 98–110), with `sep` standing for
`os.pathsep`. -/
def cleanupPass (sep : Char) (env : Env) : Env :=
  env.map (fun kv => (kv.1, cleanupValue sep kv.2))

/-- Translation of `core.build` (lines 28–112).  `sep` stands for
`os.pathsep`.  The input is copied (line 44); dependencies are collected and
sorted; a non-empty cyclic set raises `CycleError` unless `allow_cycle`
(lines 61–66); values are formatted along the reversed sorted order and then
for the cyclic keys (lines 69–80); the dynamic-key pass runs when
`dynamic_keys` (lines 83–96); the cleanup pass runs when `cleanup_flag`
(lines 98–110). -/
def build (env : Env) (dynamic_keys allow_cycle allow_key_clash cleanup_flag : Bool)
    (sep : Char) : Except BuildError Env :=
  let result := topological_sort (dependenciesOf env)
  if result.cyclic ≠ [] ∧ allow_cycle = false then .error (.cycle result.cyclic)
  else
    let env2 := valuePhase env
    (if dynamic_keys then dynamicPhase env2 allow_key_clash else .ok env2).map
      (fun e => if cleanup_flag then cleanupPass sep e else e)

/-! ### Predicates used to state the claims -/

/-- The literal placeholder text `{n}`. -/
def phStr (n : Str) : Str := '{' :: (n ++ ['}'])

/-- `p` occurs literally (as a contiguous substring) in `s`. -/
def occursIn (p s : Str) : Prop := ∃ l r, s = l ++ p ++ r

instance occursInDec (p s : Str) : Decidable (occursIn p s) :=
  decidable_of_iff (p <:+: s)
    (Iff.intro (fun h => by obtain ⟨l, r, hh⟩ := h; exact ⟨l, r, hh.symm⟩)
      (fun h => by obtain ⟨l, r, hh⟩ := h; exact ⟨l, r, hh.symm⟩))

/-- A well-behaved variable name: non-empty, without braces, newlines or the
path separator. -/
def nameOK (sep : Char) (n : Str) : Prop :=
  n ≠ [] ∧ ∀ c ∈ n, c ≠ '{' ∧ c ≠ '}' ∧ c ≠ '\n' ∧ c ≠ sep

/-- Well-formed template strings: every `{` opens a placeholder `{name}` with
a well-behaved name.  These are the template values the resolver is designed
for; the scanner parses them unambiguously. -/
inductive WFStr (sep : Char) : Str → Prop where
  | nil : WFStr sep []
  | lit {c : Char} {s : Str} : c ≠ '{' → WFStr sep s → WFStr sep (c :: s)
  | ph {n s : Str} : nameOK sep n → WFStr sep s → WFStr sep ('{' :: (n ++ '}' :: s))

/-- The edge relation of a dependency-edge list: `a`'s template references
`b`. -/
def edgeRel (edges : List (Str × Str)) (a b : Str) : Prop := (a, b) ∈ edges

/-- The dependency graph of the edge list contains a cycle: some node reaches
itself through at least one edge. -/
def cycleExists (edges : List (Str × Str)) : Prop :=
  ∃ n, Relation.TransGen (edgeRel edges) n n

/-- `a` depends on `b`, directly or transitively, in the environment's
dependency graph. -/
def dependsOn (env : Env) (a b : Str) : Prop :=
  Relation.TransGen (edgeRel (dependenciesOf env)) a b

/-- `b` has no unresolved external dependency: every key it depends on,
directly or transitively, exists in the environment. -/
def noExternalDep (env : Env) (b : Str) : Prop :=
  ∀ c, dependsOn env b c → c ∈ envKeys env

/-- `env` does not reference any key's own name inside that key's value. -/
def noSelfRef (env : Env) : Prop :=
  ∀ kv ∈ env, kv.1 ∉ findPlaceholders kv.2

/-- Hypotheses under which the resolver is exercised as designed: distinct
keys, well-behaved key names, and well-formed template values. -/
def envWF (sep : Char) (env : Env) : Prop :=
  (envKeys env).Nodup ∧ (∀ kv ∈ env, nameOK sep kv.1) ∧ ∀ kv ∈ env, WFStr sep kv.2

/-- The resolved key names produced by the dynamic-key pass, in insertion
order of their source pairs. -/
def resolvedKeys (env : Env) : List Str :=
  env.map (fun kv => pformat kv.1 env none)

/-- The value of the last pair whose key resolves to `nk` (the pair whose
value the dynamic-key pass stores last under `nk`). -/
def lastClashValue (nk : Str) (env : Env) : Option Str :=
  ((env.filter (fun kv => pformat kv.1 env none = nk)).getLast?).map Prod.snd

instance nameOKDec (sep : Char) (n : Str) : Decidable (nameOK sep n) :=
  decidable_of_iff (n ≠ [] ∧ ∀ c ∈ n, c ≠ '{' ∧ c ≠ '}' ∧ c ≠ '\n' ∧ c ≠ sep) Iff.rfl

instance noSelfRefDec (env : Env) : Decidable (noSelfRef env) :=
  decidable_of_iff (∀ kv ∈ env, kv.1 ∉ findPlaceholders kv.2) Iff.rfl

/-- A fuel-driven boolean recogniser for `WFStr`, sound by `wfChkF_sound`;
it lets well-formedness side conditions be discharged by evaluation on
concrete strings. -/
def wfChkF (sep : Char) : Nat → Str → Bool
  | _, [] => true
  | 0, _ :: _ => false
  | fuel + 1, c :: rest =>
    if c = '{' then
      match scanPH rest with
      | some (n, r) => decide (nameOK sep n) && wfChkF sep fuel r
      | none => false
    else wfChkF sep fuel rest

/-- The `WFStr` recogniser with its canonical fuel. -/
def wfChk (sep : Char) (s : Str) : Bool := wfChkF sep s.length s

/-- The in-degree of `t` restricted to edges whose dependent has not been
processed (is not in `out`). -/
def remainingDeg (pairs : List (Str × Str)) (out : List Str) (t : Str) : Nat :=
  pairs.countP (fun e => decide (e.2 = t ∧ e.1 ∉ out))

/-- The total in-degree of `t` in the edge list. -/
def inDeg (pairs : List (Str × Str)) (t : Str) : Nat :=
  pairs.countP (fun e => decide (e.2 = t))

/-- The invariant of the sorter's worker queue, tying the counter table, the
queue and the emitted output to the edge list. -/
structure KahnInv (pairs : List (Str × Str)) (counts : List (Str × Nat))
    (queue out : List Str) : Prop where
  nodup : (out ++ queue).Nodup
  keysNodup : (counts.map Prod.fst).Nodup
  entries : ∀ t, (countOf t counts).isSome ↔ 0 < inDeg pairs t
  remaining : ∀ t m, countOf t counts = some m → m = remainingDeg pairs out t
  scheduled_zero : ∀ n ∈ out ++ queue,
    countOf n counts = none ∨ countOf n counts = some 0
  drained : ∀ n, countOf n counts = some 0 → n ∈ out ++ queue
  headsIn : ∀ n, n ∈ pairs.map Prod.fst → inDeg pairs n = 0 → n ∈ out ++ queue
  order : ∀ e ∈ pairs, ∀ l1 l2, out = l1 ++ e.2 :: l2 → e.1 ∈ l1

/-! ### `core.prepare` (lines 115–155) and `core.join` (lines 158–172) -/

/-- A flat raw tool value: a string, or a list of strings. -/
inductive FlatVal where
  | s (v : Str)
  | lst (vs : List Str)
deriving DecidableEq

/-- A raw tool value: flat, or a per-platform table of flat values. -/
inductive RawVal where
  | flat (f : FlatVal)
  | plat (m : List (Str × FlatVal))
deriving DecidableEq

/-- Lookup in a per-platform table (`value.get(platform_name, "")`). -/
def platLookup (k : Str) : List (Str × FlatVal) → Option FlatVal
  | [] => none
  | (k', v) :: r => if k' = k then some v else platLookup k r

/-- Python truthiness of a flat value (`if not value: continue`). -/
def flatFalsy : FlatVal → Bool
  | .s v => v.isEmpty
  | .lst vs => vs.isEmpty

/-- `";".join(value)` for list values (line 151): the literal semicolon. -/
def joinSemicolon : List Str → Str
  | [] => []
  | [s] => s
  | s :: rest => s ++ ';' :: joinSemicolon rest

/-- The error raised by `prepare` for an unsupported platform name. -/
inductive PrepError where
  | unsupportedPlatform (p : Str)
deriving DecidableEq

/-- Translation of `core.prepare` (lines 115–155): reject unknown platform
names; reduce per-platform tables with `value.get(platform_name, "")`; skip
falsy values; join list values with the literal `";"`. -/
def prepare (env : List (Str × RawVal)) (platform_name : Str) :
    Except PrepError Env :=
  if platform_name = str "windows" ∨ platform_name = str "linux" ∨
      platform_name = str "darwin" then
    .ok (env.foldl (fun acc kv =>
      let v : FlatVal := match kv.2 with
        | .plat m => (platLookup platform_name m).getD (.s [])
        | .flat f => f
      if flatFalsy v then acc
      else dictSet kv.1
        (match v with
         | .s w => w
         | .lst vs => joinSemicolon vs) acc) [])
  else .error (.unsupportedPlatform platform_name)

/-- Modelled from the spec: `acre.lib.append_path` (§6 Environment Joiner),
which is not part of the snapshot under `src/`: append one path segment onto
the target environment's same-named variable (creating the variable when
absent).  The spec does not fix the delimiter used for the append, so it is
a parameter. -/
def append_path (env : Env) (variable_name path : Str) (appendSep : Str) : Env :=
  match envLookup variable_name env with
  | none => dictSet variable_name path env
  | some v => dictSet variable_name (v ++ appendSep ++ path) env

/-- Translation of `core.join` (lines 158–172): copy `env`; for every value
of `env_b`, split on the literal `";"` (line 166), skip empty segments, and
append each segment onto the copy. -/
def join (env env_b : Env) (appendSep : Str) : Env :=
  env_b.foldl (fun acc kv =>
    ((splitOnChar ';' kv.2).foldl (fun acc2 p =>
      if p.isEmpty then acc2 else append_path acc2 kv.1 p appendSep) acc)) env

/-! ### Object-identity model of `build` (for the no-mutation claim)

Python dicts are mutable heap objects; `build`'s only access to the caller's
dict is `env.copy()` on line 44, after which the local name `env` refers to
fresh objects (the copy, then the `formatted` dict of line 84).  `buildH`
replays `build` on an explicit heap of dict objects: the caller's dict lives
at reference `r`, the working copy is allocated at `r + 1` and the
dynamic-key dict at `r + 2`; loops that read and write only the working
object are applied to its contents.  It returns the final heap together with
the call's result. -/

/-- A heap of dict objects, addressed by natural-number references. -/
def Heap : Type := Nat → Env

/-- Write a dict object at a reference. -/
def hupd (h : Heap) (r : Nat) (d : Env) : Heap :=
  fun r' => if r' = r then d else h r'

/-- `core.build` with explicit dict objects (see above): same result as
`build (h r) …`, plus the final heap. -/
def buildH (h : Heap) (r : Nat)
    (dynamic_keys allow_cycle allow_key_clash cleanup_flag : Bool) (sep : Char) :
    Heap × Except BuildError Env :=
  let h1 := hupd h (r + 1) (h r)
  let result := topological_sort (dependenciesOf (h1 (r + 1)))
  if result.cyclic ≠ [] ∧ allow_cycle = false then
    (h1, .error (.cycle result.cyclic))
  else
    let h2 := hupd h1 (r + 1) (formatPass (h1 (r + 1)) result.sorted.reverse)
    let h3 := hupd h2 (r + 1) (formatPass (h2 (r + 1)) result.cyclic)
    if dynamic_keys then
      match dynamicPhase (h3 (r + 1)) allow_key_clash with
      | .error e => (h3, .error e)
      | .ok f =>
        let h4 := hupd h3 (r + 2) f
        let h5 := if cleanup_flag then hupd h4 (r + 2) (cleanupPass sep (h4 (r + 2))) else h4
        (h5, .ok (h5 (r + 2)))
    else
      let h5 := if cleanup_flag then hupd h3 (r + 1) (cleanupPass sep (h3 (r + 1))) else h3
      (h5, .ok (h5 (r + 1)))

/-! ## Lemmas about the placeholder scanner -/

theorem findClose_eq {s b a : Str} (h : findClose s = some (b, a)) :
    s = b ++ '}' :: a ∧ '}' ∉ b ∧ '\n' ∉ b := by
  induction s generalizing b a with
  | nil => simp [findClose] at h
  | cons c r ih =>
    by_cases h1 : c = '}'
    · subst h1
      simp [findClose] at h
      obtain ⟨hb, ha⟩ := h
      subst hb; subst ha; simp
    · by_cases h2 : c = '\n'
      · simp [findClose, h1, h2] at h
      · simp only [findClose, if_neg h1, if_neg h2, Option.map_eq_some'] at h
        obtain ⟨⟨b', a'⟩, hfc, hba⟩ := h
        obtain ⟨hb, ha⟩ := Prod.mk.injEq .. ▸ hba
        obtain ⟨hs, hnb, hnn⟩ := ih hfc
        subst hb; subst ha; subst hs
        refine ⟨rfl, ?_, ?_⟩
        · simp only [List.mem_cons, not_or]
          exact ⟨fun hh => h1 hh.symm, hnb⟩
        · simp only [List.mem_cons, not_or]
          exact ⟨fun hh => h2 hh.symm, hnn⟩

theorem scanPH_eq {s n r : Str} (h : scanPH s = some (n, r)) :
    s = n ++ '}' :: r ∧ n ≠ [] := by
  cases s with
  | nil => simp [scanPH] at h
  | cons c rest =>
    by_cases h2 : c = '\n'
    · simp [scanPH, h2] at h
    · simp only [scanPH, if_neg h2, Option.map_eq_some'] at h
      obtain ⟨⟨b', a'⟩, hfc, hba⟩ := h
      obtain ⟨hb, ha⟩ := Prod.mk.injEq .. ▸ hba
      obtain ⟨hs, _, _⟩ := findClose_eq hfc
      subst hb; subst ha; subst hs
      simp

theorem findClose_of_clean {b : Str} (a : Str) (hnb : '}' ∉ b) (hnn : '\n' ∉ b) :
    findClose (b ++ '}' :: a) = some (b, a) := by
  induction b with
  | nil => simp [findClose]
  | cons c b ih =>
    simp only [List.mem_cons, not_or] at hnb hnn
    obtain ⟨hc1, hb1⟩ := hnb
    obtain ⟨hc2, hb2⟩ := hnn
    simp [findClose, List.cons_append, Ne.symm hc1, Ne.symm hc2, ih hb1 hb2]

theorem scanPH_of_clean {n : Str} (r : Str) (hne : n ≠ []) (hnb : '}' ∉ n)
    (hnn : '\n' ∉ n) : scanPH (n ++ '}' :: r) = some (n, r) := by
  cases n with
  | nil => exact absurd rfl hne
  | cons c b =>
    simp only [List.mem_cons, not_or] at hnb hnn
    obtain ⟨hc1, hb1⟩ := hnb
    obtain ⟨hc2, hb2⟩ := hnn
    simp [scanPH, List.cons_append, Ne.symm hc2, findClose_of_clean r hb1 hb2]

theorem scanPH_of_nameOK {sep : Char} {n : Str} (r : Str) (h : nameOK sep n) :
    scanPH (n ++ '}' :: r) = some (n, r) := by
  obtain ⟨hne, hall⟩ := h
  exact scanPH_of_clean r hne (fun hm => (hall _ hm).2.1 rfl)
    (fun hm => (hall _ hm).2.2.1 rfl)

theorem scanPH_length {s n r : Str} (h : scanPH s = some (n, r)) :
    r.length < s.length := by
  obtain ⟨hs, hne⟩ := scanPH_eq h
  subst hs
  simp [List.length_append]
  omega

theorem fpF_eq_of_le : ∀ {f : Nat} {s : Str}, s.length ≤ f →
    fpF f s = fpF s.length s := by
  intro f
  induction f using Nat.strong_induction_on with
  | _ f ih =>
    intro s hlen
    match f, s with
    | 0, s =>
      interval_cases hs : s.length
      · rfl
    | f + 1, [] => rfl
    | f + 1, c :: rest =>
      have hr : rest.length ≤ f := by
        simpa using hlen
      by_cases hc : c = '{'
      · cases hsc : scanPH rest with
        | none =>
          simp only [List.length_cons, fpF, if_pos hc, hsc]
          rw [ih f (Nat.lt_succ_self f) hr,
            ih rest.length (Nat.lt_succ_of_le hr) (le_refl _)]
        | some p =>
          obtain ⟨n, r'⟩ := p
          have hlt := scanPH_length hsc
          simp only [List.length_cons, fpF, if_pos hc, hsc]
          rw [ih f (Nat.lt_succ_self f) (le_of_lt (lt_of_lt_of_le hlt hr)),
            ih rest.length (Nat.lt_succ_of_le hr) (le_of_lt hlt)]
      · simp only [List.length_cons, fpF, if_neg hc]
        rw [ih f (Nat.lt_succ_self f) hr,
          ih rest.length (Nat.lt_succ_of_le hr) (le_refl _)]

theorem fp_nil : findPlaceholders [] = [] := rfl

theorem fp_cons {c : Char} {s : Str} (hc : c ≠ '{') :
    findPlaceholders (c :: s) = findPlaceholders s := by
  simp only [findPlaceholders, List.length_cons, fpF, if_neg hc]

theorem fp_brace_some {rest n r' : Str} (hsc : scanPH rest = some (n, r')) :
    findPlaceholders ('{' :: rest) = n :: findPlaceholders r' := by
  simp only [findPlaceholders, List.length_cons, fpF, reduceIte, hsc]
  congr 1
  exact fpF_eq_of_le (le_of_lt (scanPH_length hsc))

theorem fp_brace_none {rest : Str} (hsc : scanPH rest = none) :
    findPlaceholders ('{' :: rest) = findPlaceholders rest := by
  simp only [findPlaceholders, List.length_cons, fpF, reduceIte, hsc]

theorem fp_ph {sep : Char} {n : Str} (s : Str) (h : nameOK sep n) :
    findPlaceholders ('{' :: (n ++ '}' :: s)) = n :: findPlaceholders s :=
  fp_brace_some (scanPH_of_nameOK s h)

theorem pfF_eq_of_le (data : Env) (missing : Option Str) :
    ∀ {f : Nat} {s : Str}, s.length ≤ f →
    pfF data missing f s = pfF data missing s.length s := by
  intro f
  induction f using Nat.strong_induction_on with
  | _ f ih =>
    intro s hlen
    match f, s with
    | 0, s =>
      interval_cases hs : s.length
      · rfl
    | f + 1, [] => rfl
    | f + 1, c :: rest =>
      have hr : rest.length ≤ f := by
        simpa using hlen
      by_cases hc : c = '{'
      · cases hsc : scanPH rest with
        | none =>
          simp only [List.length_cons, pfF, if_pos hc, hsc]
          rw [ih f (Nat.lt_succ_self f) hr,
            ih rest.length (Nat.lt_succ_of_le hr) (le_refl _)]
        | some p =>
          obtain ⟨n, r'⟩ := p
          have hlt := scanPH_length hsc
          simp only [List.length_cons, pfF, if_pos hc, hsc]
          rw [ih f (Nat.lt_succ_self f) (le_of_lt (lt_of_lt_of_le hlt hr)),
            ih rest.length (Nat.lt_succ_of_le hr) (le_of_lt hlt)]
      · simp only [List.length_cons, pfF, if_neg hc]
        rw [ih f (Nat.lt_succ_self f) hr,
          ih rest.length (Nat.lt_succ_of_le hr) (le_refl _)]

theorem pf_nil (data : Env) (missing : Option Str) :
    pformat [] data missing = [] := rfl

theorem pf_cons {c : Char} (s : Str) (data : Env) (missing : Option Str)
    (hc : c ≠ '{') : pformat (c :: s) data missing = c :: pformat s data missing := by
  simp only [pformat, List.length_cons, pfF, if_neg hc]

theorem pf_brace_some {rest n r' : Str} (data : Env) (missing : Option Str)
    (hsc : scanPH rest = some (n, r')) :
    pformat ('{' :: rest) data missing =
      (match envLookup n data with
       | some v => v
       | none =>
         match missing with
         | some m => m
         | none => '{' :: (n ++ ['}'])) ++ pformat r' data missing := by
  simp only [pformat, List.length_cons, pfF, reduceIte, hsc]
  congr 1
  exact pfF_eq_of_le data missing (le_of_lt (scanPH_length hsc))

theorem pf_brace_none {rest : Str} (data : Env) (missing : Option Str)
    (hsc : scanPH rest = none) :
    pformat ('{' :: rest) data missing = '{' :: pformat rest data missing := by
  simp only [pformat, List.length_cons, pfF, reduceIte, hsc]

theorem pf_ph {sep : Char} {n : Str} (s : Str) (data : Env) (missing : Option Str)
    (h : nameOK sep n) :
    pformat ('{' :: (n ++ '}' :: s)) data missing =
      (match envLookup n data with
       | some v => v
       | none =>
         match missing with
         | some m => m
         | none => '{' :: (n ++ ['}'])) ++ pformat s data missing :=
  pf_brace_some data missing (scanPH_of_nameOK s h)

theorem pformat_of_no_brace {s : Str} (data : Env) (missing : Option Str)
    (h : ∀ c ∈ s, c ≠ '{') : pformat s data missing = s := by
  induction s with
  | nil => rfl
  | cons c rest ih =>
    have hc : c ≠ '{' := h c (List.mem_cons_self _ _)
    rw [pf_cons rest data missing hc, ih (fun x hx => h x (List.mem_cons_of_mem _ hx))]

/-! ## Lemmas about well-formed template strings -/

theorem envLookup_mem {k v : Str} : ∀ {env : Env},
    envLookup k env = some v → (k, v) ∈ env := by
  intro env h
  induction env with
  | nil => simp [envLookup] at h
  | cons kv r ih =>
    obtain ⟨k', v'⟩ := kv
    by_cases hk : k' = k
    · subst hk
      simp [envLookup] at h
      subst h
      exact List.mem_cons_self _ _
    · simp only [envLookup, if_neg hk] at h
      exact List.mem_cons_of_mem _ (ih h)

theorem WFStr_append {sep : Char} {a b : Str} (ha : WFStr sep a)
    (hb : WFStr sep b) : WFStr sep (a ++ b) := by
  induction ha with
  | nil => exact hb
  | lit hc _ ih => exact .lit hc ih
  | ph hn _ ih =>
    rw [List.cons_append, List.append_assoc]
    exact .ph hn ih

theorem WFStr_of_no_brace {sep : Char} {s : Str} (h : ∀ c ∈ s, c ≠ '{') :
    WFStr sep s := by
  induction s with
  | nil => exact .nil
  | cons c rest ih =>
    exact .lit (h c (List.mem_cons_self _ _))
      (ih fun x hx => h x (List.mem_cons_of_mem _ hx))

theorem fp_append_wf {sep : Char} {a : Str} (ha : WFStr sep a) (t : Str) :
    findPlaceholders (a ++ t) = findPlaceholders a ++ findPlaceholders t := by
  induction ha with
  | nil => rfl
  | lit hc _ ih =>
    rw [List.cons_append, fp_cons hc, fp_cons hc, ih]
  | ph hn _ ih =>
    rename_i n s _
    rw [List.cons_append, List.append_assoc, List.cons_append,
      fp_ph _ hn, fp_ph _ hn, ih, List.cons_append]

theorem pformat_wf {sep : Char} {t : Str} {data : Env} (hw : WFStr sep t)
    (hdata : ∀ kv ∈ data, WFStr sep kv.2) :
    WFStr sep (pformat t data none) ∧
      findPlaceholders (pformat t data none) =
        (findPlaceholders t).flatMap (fun n =>
          match envLookup n data with
          | some v => findPlaceholders v
          | none => [n]) := by
  induction hw with
  | nil => simp [pf_nil, fp_nil, WFStr.nil]
  | lit hc _ ih =>
    rename_i c s _
    rw [pf_cons s data none hc, fp_cons hc, fp_cons hc]
    exact ⟨.lit hc ih.1, ih.2⟩
  | ph hn _ ih =>
    rename_i n s _
    rw [pf_ph s data none hn, fp_ph s hn]
    cases hl : envLookup n data with
    | some v =>
      have hv : WFStr sep v := hdata _ (envLookup_mem hl)
      constructor
      · exact WFStr_append hv ih.1
      · rw [fp_append_wf hv, ih.2, List.flatMap_cons, hl]
    | none =>
      have hsh : ('{' :: (n ++ ['}'])) ++ pformat s data none =
          '{' :: (n ++ '}' :: pformat s data none) := by
        rw [List.cons_append, List.append_assoc]
        rfl
      rw [hsh]
      constructor
      · exact .ph hn ih.1
      · rw [fp_ph _ hn, ih.2, List.flatMap_cons, hl]
        rfl

/-! ## Lemmas about literal substring occurrence -/

theorem occursIn_refl (s : Str) : occursIn s s := ⟨[], [], by simp⟩

theorem occursIn_cons {p s : Str} (c : Char) (h : occursIn p s) :
    occursIn p (c :: s) := by
  obtain ⟨l, r, rfl⟩ := h
  exact ⟨c :: l, r, rfl⟩

theorem occursIn_append_left {p s : Str} (x : Str) (h : occursIn p s) :
    occursIn p (x ++ s) := by
  obtain ⟨l, r, rfl⟩ := h
  exact ⟨x ++ l, r, by simp⟩

theorem occursIn_append_right {p s : Str} (x : Str) (h : occursIn p s) :
    occursIn p (s ++ x) := by
  obtain ⟨l, r, rfl⟩ := h
  exact ⟨l, r ++ x, by simp⟩

theorem occursIn_trans {p q s : Str} (h1 : occursIn p q) (h2 : occursIn q s) :
    occursIn p s := by
  obtain ⟨l1, r1, rfl⟩ := h1
  obtain ⟨l2, r2, rfl⟩ := h2
  exact ⟨l2 ++ l1, r1 ++ r2, by simp⟩

theorem name_eq_of_closed {b : Str} : ∀ {n r s : Str},
    b ++ '}' :: r = n ++ '}' :: s → '}' ∉ b → '}' ∉ n → b = n ∧ r = s := by
  induction b with
  | nil =>
    intro n r s h hb hn
    cases n with
    | nil => simpa using h
    | cons d n' =>
      rw [List.nil_append, List.cons_append] at h
      have : d = '}' := (List.cons.injEq .. ▸ h).1.symm
      exact absurd (this ▸ List.mem_cons_self d n') hn
  | cons c b' ih =>
    intro n r s h hb hn
    cases n with
    | nil =>
      rw [List.cons_append, List.nil_append] at h
      have : c = '}' := (List.cons.injEq .. ▸ h).1
      exact absurd (this ▸ List.mem_cons_self c b') hb
    | cons d n' =>
      rw [List.cons_append, List.cons_append] at h
      obtain ⟨hcd, hrest⟩ := List.cons.injEq .. ▸ h
      obtain ⟨h1, h2⟩ := ih hrest (fun hm => hb (List.mem_cons_of_mem _ hm))
        (fun hm => hn (List.mem_cons_of_mem _ hm))
      exact ⟨by rw [hcd, h1], h2⟩

theorem cross_name {pt r : Str} : ∀ {n s l' : Str},
    n ++ '}' :: s = l' ++ ('{' :: pt) ++ r → '{' ∉ n →
    ∃ l'', s = l'' ++ ('{' :: pt) ++ r := by
  intro n
  induction n with
  | nil =>
    intro s l' h hn
    cases l' with
    | nil => simp at h
    | cons x l'' =>
      simp only [List.nil_append, List.cons_append] at h
      exact ⟨l'', (List.cons.injEq .. ▸ h).2⟩
  | cons d n' ih =>
    intro s l' h hn
    cases l' with
    | nil =>
      simp only [List.cons_append, List.nil_append] at h
      have : d = '{' := (List.cons.injEq .. ▸ h).1
      exact absurd (this ▸ List.mem_cons_self d n') hn
    | cons x l'' =>
      simp only [List.cons_append] at h
      exact ih (List.cons.injEq .. ▸ h).2
        (fun hm => hn (List.mem_cons_of_mem _ hm))

theorem occursIn_phStr_iff {sep : Char} {s b : Str} (hw : WFStr sep s)
    (hb : nameOK sep b) : occursIn (phStr b) s ↔ b ∈ findPlaceholders s := by
  constructor
  · intro h
    induction hw with
    | nil =>
      obtain ⟨l, r, hh⟩ := h
      exact absurd hh.symm (by simp [phStr])
    | lit hc _ ih =>
      rename_i c s' _
      obtain ⟨l, r, hh⟩ := h
      cases l with
      | nil =>
        rw [List.nil_append, phStr, List.cons_append] at hh
        exact absurd (List.cons.injEq .. ▸ hh).1 hc
      | cons x l' =>
        rw [List.cons_append, List.cons_append] at hh
        rw [fp_cons hc]
        exact ih ⟨l', r, (List.cons.injEq .. ▸ hh).2⟩
    | ph hn _ ih =>
      rename_i n s' _
      obtain ⟨l, r, hh⟩ := h
      rw [fp_ph _ hn]
      cases l with
      | nil =>
        rw [List.nil_append, phStr, List.cons_append] at hh
        obtain ⟨-, htl⟩ := List.cons.injEq .. ▸ hh
        rw [List.append_assoc] at htl
        obtain ⟨hbn, -⟩ := name_eq_of_closed (by simpa using htl.symm)
          (fun hm => (hb.2 _ hm).2.1 rfl) (fun hm => (hn.2 _ hm).2.1 rfl)
        exact hbn ▸ List.mem_cons_self _ _
      | cons x l' =>
        rw [List.cons_append, List.cons_append] at hh
        obtain ⟨-, htl⟩ := List.cons.injEq .. ▸ hh
        rw [phStr] at htl
        obtain ⟨l'', hocc⟩ := @cross_name (b ++ ['}']) _ _ _ _
          (by simpa using htl) (fun hm => (hn.2 _ hm).1 rfl)
        exact List.mem_cons_of_mem _ (ih ⟨l'', _, by rw [hocc, phStr]⟩)
  · intro h
    induction hw with
    | nil => simp [fp_nil] at h
    | lit hc _ ih =>
      rw [fp_cons hc] at h
      exact occursIn_cons _ (ih h)
    | ph hn _ ih =>
      rename_i n s' _
      rw [fp_ph _ hn] at h
      rcases List.mem_cons.1 h with hbn | hmem
      · subst hbn
        exact ⟨[], s', by simp [phStr]⟩
      · have := ih hmem
        obtain ⟨l, r, rfl⟩ := this
        exact ⟨'{' :: (n ++ '}' :: l), r, by simp⟩

/-! ## Lemmas about splitting, joining and de-duplication -/

theorem splitOnChar_ne_nil (sep : Char) (s : Str) : splitOnChar sep s ≠ [] := by
  cases s with
  | nil => simp [splitOnChar]
  | cons c rest =>
    by_cases hc : c = sep
    · simp [splitOnChar, hc]
    · simp only [splitOnChar, if_neg hc]
      cases splitOnChar sep rest <;> simp

theorem sep_not_mem_split {sep : Char} : ∀ {s seg : Str},
    seg ∈ splitOnChar sep s → sep ∉ seg := by
  intro s
  induction s with
  | nil =>
    intro seg h
    simp [splitOnChar] at h
    simp [h]
  | cons c rest ih =>
    intro seg h
    by_cases hc : c = sep
    · rw [splitOnChar, if_pos hc] at h
      rcases List.mem_cons.1 h with h1 | h1
      · simp [h1]
      · exact ih h1
    · rw [splitOnChar, if_neg hc] at h
      cases hs : splitOnChar sep rest with
      | nil => exact absurd hs (splitOnChar_ne_nil sep rest)
      | cons seg0 segs =>
        rw [hs] at h
        rcases List.mem_cons.1 h with h1 | h1
        · subst h1
          intro hm
          rcases List.mem_cons.1 hm with h2 | h2
          · exact hc h2.symm
          · exact ih (hs ▸ List.mem_cons_self seg0 segs) h2
        · exact ih (hs ▸ List.mem_cons_of_mem seg0 h1)

theorem joinChar_cons (sep : Char) (s : Str) {l : List Str} (h : l ≠ []) :
    joinChar sep (s :: l) = s ++ sep :: joinChar sep l := by
  cases l with
  | nil => exact absurd rfl h
  | cons x r => rfl

theorem splitOnChar_of_not_mem {sep : Char} : ∀ {s : Str}, sep ∉ s →
    splitOnChar sep s = [s] := by
  intro s
  induction s with
  | nil => intro _; rfl
  | cons c rest ih =>
    intro h
    simp only [List.mem_cons, not_or] at h
    rw [splitOnChar, if_neg (fun hh => h.1 hh.symm), ih h.2]

theorem splitOnChar_append_sep {sep : Char} : ∀ {s : Str} (t : Str), sep ∉ s →
    splitOnChar sep (s ++ sep :: t) = s :: splitOnChar sep t := by
  intro s
  induction s with
  | nil => intro t _; simp [splitOnChar]
  | cons c rest ih =>
    intro t h
    simp only [List.mem_cons, not_or] at h
    rw [List.cons_append, splitOnChar, if_neg (fun hh => h.1 hh.symm), ih t h.2]

theorem join_split (sep : Char) : ∀ (s : Str),
    joinChar sep (splitOnChar sep s) = s := by
  intro s
  induction s with
  | nil => rfl
  | cons c rest ih =>
    by_cases hc : c = sep
    · rw [splitOnChar, if_pos hc,
        joinChar_cons sep [] (splitOnChar_ne_nil sep rest), ih, hc]
      rfl
    · rw [splitOnChar, if_neg hc]
      cases hs : splitOnChar sep rest with
      | nil => exact absurd hs (splitOnChar_ne_nil sep rest)
      | cons seg0 segs =>
        cases segs with
        | nil =>
          rw [hs] at ih
          simp only [joinChar] at ih ⊢
          rw [ih]
        | cons s1 r1 =>
          rw [hs] at ih
          rw [joinChar_cons sep _ (by simp), List.cons_append,
            ← joinChar_cons sep seg0 (by simp), ih]

theorem split_join {sep : Char} : ∀ {segs : List Str}, segs ≠ [] →
    (∀ seg ∈ segs, sep ∉ seg) →
    splitOnChar sep (joinChar sep segs) = segs := by
  intro segs
  induction segs with
  | nil => intro h _; exact absurd rfl h
  | cons s rest ih =>
    intro _ hall
    cases rest with
    | nil =>
      simp only [joinChar]
      exact splitOnChar_of_not_mem (hall s (List.mem_cons_self _ _))
    | cons s1 r1 =>
      rw [joinChar_cons sep s (by simp),
        splitOnChar_append_sep _ (hall s (List.mem_cons_self _ _)),
        ih (by simp) (fun seg hm => hall seg (List.mem_cons_of_mem _ hm))]

theorem mem_uniqAux : ∀ {l seen : List Str} {x : Str},
    x ∈ uniqAux seen l ↔ x ∈ l ∧ x ∉ seen := by
  intro l
  induction l with
  | nil => intro seen x; simp [uniqAux]
  | cons y r ih =>
    intro seen x
    by_cases hy : y ∈ seen
    · rw [uniqAux, if_pos hy, ih]
      constructor
      · rintro ⟨h1, h2⟩
        exact ⟨List.mem_cons_of_mem _ h1, h2⟩
      · rintro ⟨h1, h2⟩
        rcases List.mem_cons.1 h1 with h3 | h3
        · exact absurd (h3 ▸ hy) h2
        · exact ⟨h3, h2⟩
    · rw [uniqAux, if_neg hy]
      constructor
      · intro h
        rcases List.mem_cons.1 h with h1 | h1
        · exact ⟨h1 ▸ List.mem_cons_self _ _, h1 ▸ hy⟩
        · obtain ⟨h2, h3⟩ := ih.1 h1
          simp only [List.mem_cons, not_or] at h3
          exact ⟨List.mem_cons_of_mem _ h2, h3.2⟩
      · rintro ⟨h1, h2⟩
        rcases List.mem_cons.1 h1 with h3 | h3
        · exact h3 ▸ List.mem_cons_self _ _
        · by_cases hxy : x = y
          · exact hxy ▸ List.mem_cons_self _ _
          · exact List.mem_cons_of_mem _ (ih.2 ⟨h3, by simp [hxy, h2]⟩)

theorem mem_uniqify {l : List Str} {x : Str} :
    x ∈ uniqify_ordered l ↔ x ∈ l := by
  rw [uniqify_ordered, mem_uniqAux]
  simp

theorem nodup_uniqAux : ∀ {l seen : List Str}, (uniqAux seen l).Nodup := by
  intro l
  induction l with
  | nil => intro seen; simp [uniqAux]
  | cons y r ih =>
    intro seen
    by_cases hy : y ∈ seen
    · rw [uniqAux, if_pos hy]
      exact ih
    · rw [uniqAux, if_neg hy]
      refine List.nodup_cons.2 ⟨?_, ih⟩
      intro hmem
      exact (mem_uniqAux.1 hmem).2 (List.mem_cons_self _ _)

theorem uniqAux_eq_self : ∀ {l seen : List Str}, l.Nodup →
    (∀ x ∈ l, x ∉ seen) → uniqAux seen l = l := by
  intro l
  induction l with
  | nil => intro seen _ _; rfl
  | cons y r ih =>
    intro seen hnd hs
    rw [uniqAux, if_neg (hs y (List.mem_cons_self _ _))]
    congr 1
    refine ih (List.nodup_cons.1 hnd).2 ?_
    intro x hx
    simp only [List.mem_cons, not_or]
    exact ⟨fun hh => (List.nodup_cons.1 hnd).1 (hh ▸ hx),
      hs x (List.mem_cons_of_mem _ hx)⟩

theorem uniqify_eq_self {l : List Str} (h : l.Nodup) : uniqify_ordered l = l :=
  uniqAux_eq_self h (by simp)

/-- C7 core: cleanup of one value is idempotent. -/
theorem cleanupValue_idem (sep : Char) (v : Str) :
    cleanupValue sep (cleanupValue sep v) = cleanupValue sep v := by
  have hv : cleanupValue sep v = joinChar sep
      ((uniqify_ordered (splitOnChar sep v)).filter (fun p => !isBlankSeg p)) := rfl
  set segs := (uniqify_ordered (splitOnChar sep v)).filter (fun p => !isBlankSeg p)
    with hsegs
  have hsepfree : ∀ seg ∈ segs, sep ∉ seg := by
    intro seg hm
    have h1 : seg ∈ uniqify_ordered (splitOnChar sep v) := List.mem_of_mem_filter hm
    exact sep_not_mem_split (mem_uniqify.1 h1)
  have hnd : segs.Nodup := List.Nodup.filter _ nodup_uniqAux
  have hnb : ∀ seg ∈ segs, (!isBlankSeg seg) = true := fun seg hm =>
    (List.mem_filter.1 hm).2
  cases hse : segs with
  | nil =>
    rw [hv, hse]
    rfl
  | cons s0 r0 =>
    conv_lhs => rw [hv]
    rw [cleanupValue, split_join (by rw [hse]; simp) hsepfree,
      uniqify_eq_self hnd, List.filter_eq_self.2 hnb, hv]

theorem mem_occursIn_join {sep : Char} : ∀ {segs : List Str} {seg : Str},
    seg ∈ segs → occursIn seg (joinChar sep segs) := by
  intro segs
  induction segs with
  | nil => intro seg h; simp at h
  | cons x rest ih =>
    intro seg h
    cases rest with
    | nil =>
      rcases List.mem_cons.1 h with h1 | h1
      · exact h1 ▸ occursIn_refl x
      · simp at h1
    | cons x1 r1 =>
      rw [joinChar_cons sep x (by simp)]
      rcases List.mem_cons.1 h with h1 | h1
      · exact h1 ▸ ⟨[], sep :: joinChar sep (x1 :: r1), rfl⟩
      · have := ih h1
        obtain ⟨l, r, hlr⟩ := this
        exact ⟨x ++ sep :: l, r, by simp [hlr]⟩

theorem occursIn_append_sep_split {sep : Char} {p a b : Str}
    (hne : p ≠ []) (hsep : sep ∉ p) (h : occursIn p (a ++ sep :: b)) :
    occursIn p a ∨ occursIn p b := by
  obtain ⟨l, r, h⟩ := h
  by_cases hle : l.length + p.length ≤ a.length
  · left
    have hpre : (l ++ p) <+: a ++ sep :: b := ⟨r, h.symm⟩
    have hpre2 : (l ++ p) <+: a :=
      (List.isPrefix_append_of_length (by simpa using hle)).1 hpre
    obtain ⟨t, ht⟩ := hpre2
    exact ⟨l, t, by rw [← ht, List.append_assoc]⟩
  · push_neg at hle
    by_cases hla : a.length < l.length
    · right
      have h1 : (a ++ [sep]) <+: a ++ sep :: b := ⟨b, by simp⟩
      have h2 : l <+: a ++ sep :: b :=
        ⟨p ++ r, by rw [← List.append_assoc]; exact h.symm⟩
      have hpre : (a ++ [sep]) <+: l :=
        List.prefix_of_prefix_length_le h1 h2 (by simp; omega)
      obtain ⟨l'', hl⟩ := hpre
      rw [← hl] at h
      simp only [List.append_assoc, List.singleton_append] at h
      have hb : b = l'' ++ (p ++ r) :=
        (List.cons.injEq .. ▸ List.append_cancel_left h).2
      exact ⟨l'', r, by rw [List.append_assoc]; exact hb⟩
    · exfalso
      push_neg at hla
      have hdro : (a ++ sep :: b).drop l.length = p ++ r := by
        rw [h, List.append_assoc, List.drop_left]
      have hdra : (a ++ sep :: b).drop l.length = a.drop l.length ++ sep :: b :=
        List.drop_append_of_le_length hla
      have heq : p ++ r = a.drop l.length ++ sep :: b := by rw [← hdro, hdra]
      have hlen : (a.drop l.length).length < p.length := by
        simp only [List.length_drop]
        omega
      have h3 : a.drop l.length <+: p :=
        List.prefix_of_prefix_length_le ⟨sep :: b, heq.symm⟩
          (List.prefix_append p r) (le_of_lt hlen)
      obtain ⟨p'', hp⟩ := h3
      rw [← hp, List.append_assoc] at heq
      have htail : p'' ++ r = sep :: b := List.append_cancel_left heq
      cases p'' with
      | nil =>
        rw [← hp] at hlen
        simp at hlen
      | cons q qt =>
        have hq : q = sep := (List.cons.injEq .. ▸ htail).1
        exact hsep (hp ▸ List.mem_append_right _ (hq ▸ List.mem_cons_self q qt))

theorem occursIn_join_sep_free {sep : Char} : ∀ {segs : List Str} {p : Str},
    p ≠ [] → sep ∉ p → occursIn p (joinChar sep segs) →
    ∃ seg ∈ segs, occursIn p seg := by
  intro segs
  induction segs with
  | nil =>
    intro p hne _ h
    obtain ⟨l, r, h⟩ := h
    have hlen := congrArg List.length h
    simp only [joinChar, List.length_nil, List.length_append] at hlen
    have hp0 : p.length = 0 := by omega
    exact absurd (List.length_eq_zero.1 hp0) hne
  | cons x rest ih =>
    intro p hne hsep h
    cases rest with
    | nil => exact ⟨x, List.mem_cons_self _ _, h⟩
    | cons x1 r1 =>
      rw [joinChar_cons sep x (by simp)] at h
      rcases occursIn_append_sep_split hne hsep h with h1 | h1
      · exact ⟨x, List.mem_cons_self _ _, h1⟩
      · obtain ⟨seg, hm, ho⟩ := ih hne hsep h1
        exact ⟨seg, List.mem_cons_of_mem _ hm, ho⟩

/-- Cleanup cannot create a literal occurrence of a separator-free pattern. -/
theorem occursIn_of_cleanup {sep : Char} {p v : Str} (hne : p ≠ [])
    (hsep : sep ∉ p) (h : occursIn p (cleanupValue sep v)) : occursIn p v := by
  rw [cleanupValue] at h
  obtain ⟨seg, hm, ho⟩ := occursIn_join_sep_free hne hsep h
  have hs : seg ∈ splitOnChar sep v :=
    mem_uniqify.1 (List.mem_of_mem_filter hm)
  exact occursIn_trans ho (by
    have := @mem_occursIn_join sep _ _ hs
    rwa [join_split] at this)

/-- Cleanup preserves an occurrence of a separator-free pattern that contains
a non-whitespace character. -/
theorem occursIn_cleanup_of_occursIn {sep : Char} {p v : Str}
    (hne : p ≠ []) (hsep : sep ∉ p) (hnb : ∃ c ∈ p, isPySpace c = false)
    (h : occursIn p v) : occursIn p (cleanupValue sep v) := by
  rw [← join_split sep v] at h
  obtain ⟨seg, hm, ho⟩ := occursIn_join_sep_free hne hsep h
  have hmu : seg ∈ uniqify_ordered (splitOnChar sep v) := mem_uniqify.2 hm
  have hsegnb : (!isBlankSeg seg) = true := by
    obtain ⟨c, hcp, hcs⟩ := hnb
    obtain ⟨l, r, rfl⟩ := ho
    have hcseg : c ∈ l ++ (p ++ r) :=
      List.mem_append_right l (List.mem_append_left r hcp)
    have hfalse : isBlankSeg (l ++ (p ++ r)) = false := by
      rw [isBlankSeg]
      by_contra hcontra
      rw [Bool.not_eq_false] at hcontra
      have := List.all_eq_true.1 hcontra c hcseg
      rw [hcs] at this
      exact absurd this (by simp)
    simp [List.append_assoc, hfalse]
  exact occursIn_trans ho
    (mem_occursIn_join (List.mem_filter.2 ⟨hmu, hsegnb⟩))

/-! ## Lemmas about the topological sorter -/

theorem countOf_eq_none_iff {t : Str} : ∀ {cs : List (Str × Nat)},
    countOf t cs = none ↔ t ∉ cs.map Prod.fst := by
  intro cs
  induction cs with
  | nil => simp [countOf]
  | cons p r ih =>
    obtain ⟨x, n⟩ := p
    by_cases hx : x = t
    · subst hx
      simp [countOf]
    · simp only [countOf, if_neg hx, ih, List.map_cons, List.mem_cons, not_or]
      constructor
      · intro h
        exact ⟨fun hh => hx hh.symm, h⟩
      · intro h
        exact h.2

theorem mem_of_countOf {t : Str} {m : Nat} : ∀ {cs : List (Str × Nat)},
    countOf t cs = some m → (t, m) ∈ cs := by
  intro cs h
  induction cs with
  | nil => simp [countOf] at h
  | cons p r ih =>
    obtain ⟨x, n⟩ := p
    by_cases hx : x = t
    · subst hx
      simp [countOf] at h
      subst h
      exact List.mem_cons_self _ _
    · rw [countOf, if_neg hx] at h
      exact List.mem_cons_of_mem _ (ih h)

theorem countOf_of_mem_nodup {t : Str} {m : Nat} : ∀ {cs : List (Str × Nat)},
    (cs.map Prod.fst).Nodup → (t, m) ∈ cs → countOf t cs = some m := by
  intro cs hnd hm
  induction cs with
  | nil => simp at hm
  | cons p r ih =>
    obtain ⟨x, n⟩ := p
    rw [List.map_cons] at hnd
    rcases List.mem_cons.1 hm with h1 | h1
    · obtain ⟨ht, hn⟩ := Prod.mk.injEq .. ▸ h1
      rw [countOf, if_pos ht.symm, hn]
    · by_cases hx : x = t
      · subst hx
        have hmem : x ∈ r.map Prod.fst := by
          have := List.mem_map_of_mem Prod.fst h1
          simpa using this
        exact absurd hmem (List.nodup_cons.1 hnd).1
      · rw [countOf, if_neg hx]
        exact ih (List.nodup_cons.1 hnd).2 h1

theorem countOf_bump (t x : Str) : ∀ (cs : List (Str × Nat)),
    countOf t (bumpCount x cs) =
      if x = t then
        match countOf t cs with
        | some m => some (m + 1)
        | none => some 1
      else countOf t cs := by
  intro cs
  induction cs with
  | nil =>
    by_cases hx : x = t
    · subst hx
      simp [bumpCount, countOf]
    · simp [bumpCount, countOf, hx]
  | cons p r ih =>
    obtain ⟨y, n⟩ := p
    by_cases hy : y = x
    · subst hy
      rw [bumpCount, if_pos rfl]
      by_cases ht : y = t
      · subst ht
        simp [countOf]
      · rw [countOf, if_neg ht, countOf, if_neg ht, if_neg (fun hh : y = t => ht hh)]
    · rw [bumpCount, if_neg hy]
      by_cases ht : y = t
      · subst ht
        have hx : ¬ x = y := fun hh => hy hh.symm
        rw [countOf, if_pos rfl, countOf, if_pos rfl, if_neg hx]
      · rw [countOf, if_neg ht, countOf, if_neg ht, ih]

theorem countOf_decCount (t x : Str) : ∀ (cs : List (Str × Nat)),
    countOf t (decCount x cs) =
      if x = t then (countOf t cs).map (· - 1) else countOf t cs := by
  intro cs
  induction cs with
  | nil => simp [decCount, countOf]
  | cons p r ih =>
    obtain ⟨y, n⟩ := p
    by_cases hy : y = x
    · subst hy
      rw [decCount, if_pos rfl]
      by_cases ht : y = t
      · subst ht
        simp [countOf]
      · rw [countOf, if_neg ht, countOf, if_neg ht, if_neg (fun hh : y = t => ht hh)]
    · rw [decCount, if_neg hy]
      by_cases ht : y = t
      · subst ht
        have hx : ¬ x = y := fun hh => hy hh.symm
        rw [countOf, if_pos rfl, countOf, if_pos rfl, if_neg hx]
      · rw [countOf, if_neg ht, countOf, if_neg ht, ih]

theorem decCount_keys (x : Str) : ∀ (cs : List (Str × Nat)),
    (decCount x cs).map Prod.fst = cs.map Prod.fst := by
  intro cs
  induction cs with
  | nil => rfl
  | cons p r ih =>
    obtain ⟨y, n⟩ := p
    by_cases hy : y = x
    · rw [decCount, if_pos hy]
      simp
    · rw [decCount, if_neg hy, List.map_cons, List.map_cons, ih]

theorem bumpCount_keys (x : Str) : ∀ (cs : List (Str × Nat)),
    (bumpCount x cs).map Prod.fst =
      if x ∈ cs.map Prod.fst then cs.map Prod.fst
      else cs.map Prod.fst ++ [x] := by
  intro cs
  induction cs with
  | nil => simp [bumpCount]
  | cons p r ih =>
    obtain ⟨y, n⟩ := p
    by_cases hy : y = x
    · subst hy
      rw [bumpCount, if_pos rfl]
      simp
    · rw [bumpCount, if_neg hy, List.map_cons, List.map_cons, ih]
      by_cases hm : x ∈ r.map Prod.fst
      · rw [if_pos hm, if_pos (List.mem_cons_of_mem _ hm)]
      · rw [if_neg hm, if_neg (by
          simp only [List.mem_cons, not_or]
          exact ⟨fun hh => hy hh.symm, hm⟩)]
        rfl

theorem bumpCount_keys_nodup {x : Str} {cs : List (Str × Nat)}
    (h : (cs.map Prod.fst).Nodup) : ((bumpCount x cs).map Prod.fst).Nodup := by
  rw [bumpCount_keys]
  by_cases hm : x ∈ cs.map Prod.fst
  · rwa [if_pos hm]
  · rw [if_neg hm]
    refine List.Nodup.append h (List.nodup_singleton x) ?_
    intro a ha hax
    rw [List.mem_singleton] at hax
    exact hm (hax ▸ ha)

theorem tailsOf_addTail_self (h t : Str) : ∀ (tls : List (Str × List Str)),
    tailsOf h (addTail h t tls) = tailsOf h tls ++ [t] := by
  intro tls
  induction tls with
  | nil => simp [addTail, tailsOf]
  | cons p r ih =>
    obtain ⟨y, ts⟩ := p
    by_cases hy : y = h
    · subst hy
      rw [addTail, if_pos rfl, tailsOf, if_pos rfl, tailsOf, if_pos rfl]
    · rw [addTail, if_neg hy, tailsOf, if_neg hy, tailsOf, if_neg hy, ih]

theorem tailsOf_addTail_other {h h' : Str} (t : Str) (hne : h' ≠ h) :
    ∀ (tls : List (Str × List Str)),
    tailsOf h (addTail h' t tls) = tailsOf h tls := by
  intro tls
  induction tls with
  | nil => simp [addTail, tailsOf, hne]
  | cons p r ih =>
    obtain ⟨y, ts⟩ := p
    by_cases hy : y = h'
    · subst hy
      rw [addTail, if_pos rfl, tailsOf, if_neg hne, tailsOf, if_neg hne]
    · rw [addTail, if_neg hy, tailsOf, tailsOf]
      by_cases hyh : y = h
      · rw [if_pos hyh, if_pos hyh]
      · rw [if_neg hyh, if_neg hyh, ih]

theorem addTail_keys (h t : Str) : ∀ (tls : List (Str × List Str)),
    (addTail h t tls).map Prod.fst =
      if h ∈ tls.map Prod.fst then tls.map Prod.fst
      else tls.map Prod.fst ++ [h] := by
  intro tls
  induction tls with
  | nil => simp [addTail]
  | cons p r ih =>
    obtain ⟨y, ts⟩ := p
    by_cases hy : y = h
    · subst hy
      rw [addTail, if_pos rfl]
      simp
    · rw [addTail, if_neg hy, List.map_cons, List.map_cons, ih]
      by_cases hm : h ∈ r.map Prod.fst
      · rw [if_pos hm, if_pos (List.mem_cons_of_mem _ hm)]
      · rw [if_neg hm, if_neg (by
          simp only [List.mem_cons, not_or]
          exact ⟨fun hh => hy hh.symm, hm⟩)]
        rfl

theorem addTail_keys_nodup {h t : Str} {tls : List (Str × List Str)}
    (hn : (tls.map Prod.fst).Nodup) : ((addTail h t tls).map Prod.fst).Nodup := by
  rw [addTail_keys]
  by_cases hm : h ∈ tls.map Prod.fst
  · rwa [if_pos hm]
  · rw [if_neg hm]
    refine List.Nodup.append hn (List.nodup_singleton h) ?_
    intro a ha hax
    rw [List.mem_singleton] at hax
    exact hm (hax ▸ ha)

theorem collectGraph_fst : ∀ (pairs : List (Str × Str)) (cs : List (Str × Nat))
    (tls : List (Str × List Str)),
    (pairs.foldl (fun acc p => (bumpCount p.2 acc.1, addTail p.1 p.2 acc.2))
      (cs, tls)).1 = pairs.foldl (fun c p => bumpCount p.2 c) cs := by
  intro pairs
  induction pairs with
  | nil => intro cs tls; rfl
  | cons p rest ih => intro cs tls; exact ih _ _

theorem collectGraph_snd : ∀ (pairs : List (Str × Str)) (cs : List (Str × Nat))
    (tls : List (Str × List Str)),
    (pairs.foldl (fun acc p => (bumpCount p.2 acc.1, addTail p.1 p.2 acc.2))
      (cs, tls)).2 = pairs.foldl (fun tl p => addTail p.1 p.2 tl) tls := by
  intro pairs
  induction pairs with
  | nil => intro cs tls; rfl
  | cons p rest ih => intro cs tls; exact ih _ _

theorem countOf_foldl_bump (t : Str) : ∀ (pairs : List (Str × Str))
    (cs : List (Str × Nat)),
    countOf t (pairs.foldl (fun c p => bumpCount p.2 c) cs) =
      match countOf t cs with
      | some m => some (m + inDeg pairs t)
      | none => if inDeg pairs t = 0 then none else some (inDeg pairs t) := by
  intro pairs
  induction pairs with
  | nil =>
    intro cs
    have h0 : inDeg [] t = 0 := rfl
    rw [List.foldl_nil, h0]
    cases countOf t cs <;> simp
  | cons p rest ih =>
    intro cs
    rw [List.foldl_cons, ih, countOf_bump]
    have hdeg : inDeg (p :: rest) t =
        inDeg rest t + (if p.2 = t then 1 else 0) := by
      rw [inDeg, List.countP_cons, inDeg]
      by_cases hp : p.2 = t
      · simp [hp]
      · simp [hp]
    by_cases hp : p.2 = t
    · rw [if_pos hp, hdeg, if_pos hp]
      cases hc : countOf t cs with
      | some m => simp; omega
      | none => simp; omega
    · rw [if_neg hp, hdeg, if_neg hp]
      cases hc : countOf t cs <;> simp

theorem countOf_collect (t : Str) (pairs : List (Str × Str)) :
    countOf t (collectGraph pairs).1 =
      if inDeg pairs t = 0 then none else some (inDeg pairs t) := by
  rw [collectGraph, collectGraph_fst, countOf_foldl_bump]
  rfl

theorem tailsOf_foldl_add (h : Str) : ∀ (pairs : List (Str × Str))
    (tls : List (Str × List Str)),
    tailsOf h (pairs.foldl (fun tl p => addTail p.1 p.2 tl) tls) =
      tailsOf h tls ++ (pairs.filter (fun e => decide (e.1 = h))).map Prod.snd := by
  intro pairs
  induction pairs with
  | nil => intro tls; simp
  | cons p rest ih =>
    intro tls
    rw [List.foldl_cons, ih]
    by_cases hp : p.1 = h
    · rw [hp, tailsOf_addTail_self]
      rw [List.filter_cons, if_pos (by simp [hp])]
      simp
    · rw [tailsOf_addTail_other _ hp]
      rw [List.filter_cons, if_neg (by simp [hp])]

theorem tailsOf_collect (h : Str) (pairs : List (Str × Str)) :
    tailsOf h (collectGraph pairs).2 =
      (pairs.filter (fun e => decide (e.1 = h))).map Prod.snd := by
  rw [collectGraph, collectGraph_snd, tailsOf_foldl_add]
  rfl

theorem collect_counts_keys_nodup (pairs : List (Str × Str)) :
    (((collectGraph pairs).1).map Prod.fst).Nodup := by
  rw [collectGraph, collectGraph_fst]
  suffices hgen : ∀ (cs : List (Str × Nat)), (cs.map Prod.fst).Nodup →
      ((pairs.foldl (fun c p => bumpCount p.2 c) cs).map Prod.fst).Nodup by
    exact hgen [] (by simp)
  induction pairs with
  | nil => intro cs hcs; exact hcs
  | cons p rest ih =>
    intro cs hcs
    exact ih _ (bumpCount_keys_nodup hcs)

theorem collect_tails_keys_nodup (pairs : List (Str × Str)) :
    (((collectGraph pairs).2).map Prod.fst).Nodup := by
  rw [collectGraph, collectGraph_snd]
  suffices hgen : ∀ (tls : List (Str × List Str)), (tls.map Prod.fst).Nodup →
      ((pairs.foldl (fun tl p => addTail p.1 p.2 tl) tls).map Prod.fst).Nodup by
    exact hgen [] (by simp)
  induction pairs with
  | nil => intro tls htl; exact htl
  | cons p rest ih =>
    intro tls htl
    exact ih _ (addTail_keys_nodup htl)

theorem mem_collect_tails_keys (n : Str) (pairs : List (Str × Str)) :
    n ∈ ((collectGraph pairs).2).map Prod.fst ↔ n ∈ pairs.map Prod.fst := by
  rw [collectGraph, collectGraph_snd]
  suffices hgen : ∀ (tls : List (Str × List Str)),
      (n ∈ (pairs.foldl (fun tl p => addTail p.1 p.2 tl) tls).map Prod.fst ↔
        n ∈ tls.map Prod.fst ∨ n ∈ pairs.map Prod.fst) by
    rw [hgen []]
    simp
  induction pairs with
  | nil => intro tls; simp
  | cons p rest ih =>
    intro tls
    rw [List.foldl_cons, ih, addTail_keys]
    by_cases hm : p.1 ∈ tls.map Prod.fst
    · rw [if_pos hm]
      constructor
      · rintro (h1 | h1)
        · exact Or.inl h1
        · exact Or.inr (List.mem_cons_of_mem _ h1)
      · rintro (h1 | h1)
        · exact Or.inl h1
        · rcases List.mem_map.1 h1 with ⟨e, he, hne⟩
          rcases List.mem_cons.1 he with h2 | h2
          · exact Or.inl (hne ▸ h2 ▸ hm)
          · exact Or.inr (hne ▸ List.mem_map_of_mem _ h2)
    · rw [if_neg hm]
      constructor
      · rintro (h1 | h1)
        · rcases List.mem_append.1 h1 with h2 | h2
          · exact Or.inl h2
          · rw [List.mem_singleton] at h2
            exact Or.inr (h2 ▸ List.mem_map_of_mem _ (List.mem_cons_self p rest))
        · exact Or.inr (List.mem_cons_of_mem _ h1)
      · rintro (h1 | h1)
        · exact Or.inl (List.mem_append_left _ h1)
        · rcases List.mem_map.1 h1 with ⟨e, he, hne⟩
          rcases List.mem_cons.1 he with h2 | h2
          · exact Or.inl (List.mem_append_right _
              (by rw [List.mem_singleton, ← hne, h2]))
          · exact Or.inr (hne ▸ List.mem_map_of_mem _ h2)

theorem count_tailsOf (h t : Str) (pairs : List (Str × Str)) :
    (tailsOf h (collectGraph pairs).2).count t =
      pairs.countP (fun e => decide (e.1 = h ∧ e.2 = t)) := by
  rw [tailsOf_collect]
  induction pairs with
  | nil => rfl
  | cons p rest ih =>
    rw [List.filter_cons, List.countP_cons]
    by_cases h1 : p.1 = h
    · rw [if_pos (by simp [h1]), List.map_cons, List.count_cons, ih]
      by_cases h2 : p.2 = t <;> simp [h1, h2]
    · rw [if_neg (by simp [h1]), ih]
      simp [h1]

theorem foldl_stepT_shift : ∀ (ts : List Str) (st : List (Str × Nat) × List Str),
    (ts.foldl stepT st).1 = (ts.foldl stepT (st.1, [])).1 ∧
      (ts.foldl stepT st).2 = st.2 ++ (ts.foldl stepT (st.1, [])).2 := by
  intro ts
  induction ts with
  | nil => intro st; simp
  | cons x rest ih =>
    intro st
    rw [List.foldl_cons, List.foldl_cons]
    obtain ⟨ih1, ih2⟩ := ih (stepT st x)
    obtain ⟨ih1', ih2'⟩ := ih (stepT (st.1, []) x)
    have hfst : (stepT st x).1 = (stepT (st.1, []) x).1 := rfl
    constructor
    · rw [ih1, ih1', hfst]
    · rw [ih2, ih2', hfst]
      by_cases hc : countOf x st.1 = some 1
      · simp [stepT, hc, List.append_assoc]
      · simp [stepT, hc]

theorem processTails_cons (counts : List (Str × Nat)) (x : Str) (rest : List Str) :
    (processTails counts (x :: rest)).1 = (processTails (decCount x counts) rest).1 ∧
      (processTails counts (x :: rest)).2 =
        (if countOf x counts = some 1 then [x] else []) ++
          (processTails (decCount x counts) rest).2 := by
  rw [processTails, List.foldl_cons]
  obtain ⟨h1, h2⟩ := foldl_stepT_shift rest (stepT (counts, []) x)
  constructor
  · rw [h1]
    rfl
  · rw [h2]
    by_cases hc : countOf x counts = some 1
    · simp [stepT, hc, processTails]
    · simp [stepT, hc, processTails]

theorem processTails_countOf : ∀ (ts : List Str) (counts : List (Str × Nat)) (t : Str),
    countOf t (processTails counts ts).1 =
      (countOf t counts).map (fun m => m - ts.count t) := by
  intro ts
  induction ts with
  | nil =>
    intro counts t
    rw [processTails, List.foldl_nil]
    cases countOf t counts <;> simp
  | cons x rest ih =>
    intro counts t
    rw [(processTails_cons counts x rest).1, ih, countOf_decCount]
    by_cases hx : x = t
    · subst hx
      rw [if_pos rfl, List.count_cons_self]
      cases countOf x counts <;> simp <;> omega
    · rw [if_neg hx, List.count_cons_of_ne (fun hh => hx hh.symm)]

theorem processTails_mem : ∀ (ts : List Str) (counts : List (Str × Nat)) (t : Str),
    t ∈ (processTails counts ts).2 ↔
      ∃ m, countOf t counts = some m ∧ 1 ≤ m ∧ m ≤ ts.count t := by
  intro ts
  induction ts with
  | nil =>
    intro counts t
    rw [processTails, List.foldl_nil]
    simp
  | cons x rest ih =>
    intro counts t
    rw [(processTails_cons counts x rest).2, List.mem_append, ih, countOf_decCount]
    by_cases hx : x = t
    · subst hx
      rw [if_pos rfl, List.count_cons_self]
      constructor
      · rintro (h1 | ⟨m, hm, h1, h2⟩)
        · by_cases hc : countOf x counts = some 1
          · exact ⟨1, hc, le_refl 1, by omega⟩
          · simp [hc] at h1
        · cases hc : countOf x counts with
          | none => rw [hc] at hm; simp at hm
          | some m0 =>
            rw [hc] at hm
            simp at hm
            exact ⟨m0, rfl, by omega, by omega⟩
      · rintro ⟨m, hm, h1, h2⟩
        by_cases hm1 : m = 1
        · subst hm1
          left
          simp [hm]
        · right
          exact ⟨m - 1, by rw [hm]; rfl, by omega, by omega⟩
    · rw [if_neg hx, List.count_cons_of_ne (fun hh => hx hh.symm)]
      constructor
      · rintro (h1 | h1)
        · by_cases hc : countOf x counts = some 1 <;> simp [hc] at h1 <;>
            exact absurd h1 (fun hh => hx hh.symm)
        · exact h1
      · intro h1
        right
        exact h1

theorem processTails_nodup : ∀ (ts : List Str) (counts : List (Str × Nat)),
    (processTails counts ts).2.Nodup := by
  intro ts
  induction ts with
  | nil => intro counts; simp [processTails]
  | cons x rest ih =>
    intro counts
    rw [(processTails_cons counts x rest).2]
    by_cases hc : countOf x counts = some 1
    · rw [if_pos hc]
      refine List.Nodup.append (List.nodup_singleton x) (ih _) ?_
      intro a ha hax
      rw [List.mem_singleton] at ha
      subst ha
      obtain ⟨m, hm, h1, _⟩ := (processTails_mem rest _ a).1 hax
      rw [countOf_decCount, if_pos rfl, hc] at hm
      simp at hm
      omega
    · rw [if_neg hc, List.nil_append]
      exact ih _

theorem countOf_le_countsSum {t : Str} {m : Nat} : ∀ {cs : List (Str × Nat)},
    countOf t cs = some m → m ≤ countsSum cs := by
  intro cs h
  induction cs with
  | nil => simp [countOf] at h
  | cons p r ih =>
    obtain ⟨y, n⟩ := p
    rw [countsSum, List.map_cons, List.sum_cons]
    by_cases hy : y = t
    · rw [countOf, if_pos hy] at h
      have : n = m := by injection h
      omega
    · rw [countOf, if_neg hy] at h
      have := ih h
      rw [countsSum] at this
      omega

theorem countsSum_decCount_le (x : Str) : ∀ (cs : List (Str × Nat)),
    countsSum (decCount x cs) ≤ countsSum cs := by
  intro cs
  induction cs with
  | nil => simp [decCount]
  | cons p r ih =>
    obtain ⟨y, n⟩ := p
    by_cases hy : y = x
    · rw [decCount, if_pos hy, countsSum, countsSum, List.map_cons, List.map_cons,
        List.sum_cons, List.sum_cons]
      have : n - 1 ≤ n := Nat.sub_le n 1
      omega
    · rw [decCount, if_neg hy, countsSum, countsSum, List.map_cons, List.map_cons,
        List.sum_cons, List.sum_cons]
      have := ih
      rw [countsSum, countsSum] at this
      omega

theorem countsSum_decCount_lt {x : Str} {m : Nat} : ∀ {cs : List (Str × Nat)},
    countOf x cs = some (m + 1) → countsSum (decCount x cs) + 1 ≤ countsSum cs := by
  intro cs h
  induction cs with
  | nil => simp [countOf] at h
  | cons p r ih =>
    obtain ⟨y, n⟩ := p
    by_cases hy : y = x
    · rw [countOf, if_pos hy] at h
      have hn : n = m + 1 := by injection h
      rw [decCount, if_pos hy, countsSum, countsSum, List.map_cons, List.map_cons,
        List.sum_cons, List.sum_cons, hn]
      simp
      omega
    · rw [countOf, if_neg hy] at h
      rw [decCount, if_neg hy, countsSum, countsSum, List.map_cons, List.map_cons,
        List.sum_cons, List.sum_cons]
      have := ih h
      rw [countsSum, countsSum] at this
      omega

theorem processTails_measure : ∀ (ts : List Str) (counts : List (Str × Nat)),
    countsSum (processTails counts ts).1 + (processTails counts ts).2.length ≤
      countsSum counts := by
  intro ts
  induction ts with
  | nil => intro counts; simp [processTails]
  | cons x rest ih =>
    intro counts
    rw [(processTails_cons counts x rest).1, (processTails_cons counts x rest).2,
      List.length_append]
    by_cases hc : countOf x counts = some 1
    · rw [if_pos hc]
      have h1 := countsSum_decCount_lt (m := 0) hc
      have h2 := ih (decCount x counts)
      simp only [List.length_singleton]
      omega
    · rw [if_neg hc, List.length_nil]
      cases hco : countOf x counts with
      | none =>
        have hdec : decCount x counts = counts := by
          have hx : x ∉ counts.map Prod.fst := countOf_eq_none_iff.1 hco
          clear hc hco ih
          induction counts with
          | nil => rfl
          | cons p r ihc =>
            obtain ⟨y, n⟩ := p
            simp only [List.map_cons, List.mem_cons, not_or] at hx
            rw [decCount, if_neg (fun hh => hx.1 hh.symm), ihc hx.2]
        have h2 := ih (decCount x counts)
        rw [hdec] at h2 ⊢
        omega
      | some m =>
        cases m with
        | zero =>
          have h1 := countsSum_decCount_le x counts
          have h2 := ih (decCount x counts)
          omega
        | succ m0 =>
          have h1 := countsSum_decCount_lt hco
          have h2 := ih (decCount x counts)
          omega

theorem remainingDeg_nil_out (pairs : List (Str × Str)) (t : Str) :
    remainingDeg pairs [] t = inDeg pairs t := by
  rw [remainingDeg, inDeg]
  apply List.countP_congr
  intro e _
  simp

theorem remainingDeg_append_one {pairs : List (Str × Str)} {out : List Str}
    {h t : Str} (hout : h ∉ out) :
    remainingDeg pairs out t =
      remainingDeg pairs (out ++ [h]) t +
        pairs.countP (fun e => decide (e.1 = h ∧ e.2 = t)) := by
  induction pairs with
  | nil => rfl
  | cons p rest ih =>
    simp only [remainingDeg] at ih ⊢
    rw [List.countP_cons, List.countP_cons, List.countP_cons]
    have hite : (if decide (p.2 = t ∧ p.1 ∉ out) = true then 1 else 0) =
        ((if decide (p.2 = t ∧ p.1 ∉ out ++ [h]) = true then 1 else 0) +
          (if decide (p.1 = h ∧ p.2 = t) = true then 1 else 0) : Nat) := by
      by_cases h1 : p.1 = h
      · by_cases h2 : p.2 = t
        · have h3 : p.1 ∉ out := h1 ▸ hout
          simp [h1, h2, h3, hout]
        · simp [h1, h2]
      · by_cases h2 : p.2 = t
        · by_cases h3 : p.1 ∈ out
          · simp [h1, h2, h3]
          · simp [h1, h2, h3]
        · simp [h1, h2]
    omega

theorem remainingDeg_zero_mem {pairs : List (Str × Str)} {out : List Str}
    {g t : Str} (h0 : remainingDeg pairs out t = 0) (he : (g, t) ∈ pairs) :
    g ∈ out := by
  rw [remainingDeg, List.countP_eq_zero] at h0
  have := h0 (g, t) he
  simp at this
  exact this

theorem append_singleton_split {α : Type} {y t : α} : ∀ {xs l1 l2 : List α},
    xs ++ [y] = l1 ++ t :: l2 →
    (∃ l2', xs = l1 ++ t :: l2' ∧ l2 = l2' ++ [y]) ∨ (t = y ∧ l1 = xs ∧ l2 = []) := by
  intro xs l1
  induction l1 generalizing xs with
  | nil =>
    intro l2 h
    cases xs with
    | nil =>
      right
      simp only [List.nil_append] at h
      obtain ⟨h1, h2⟩ := List.cons.injEq .. ▸ h
      exact ⟨h1.symm, rfl, h2.symm⟩
    | cons x xs' =>
      left
      rw [List.cons_append, List.nil_append] at h
      obtain ⟨h1, h2⟩ := List.cons.injEq .. ▸ h
      exact ⟨xs', by rw [h1, List.nil_append], h2.symm⟩
  | cons a l1' ih =>
    intro l2 h
    cases xs with
    | nil =>
      exfalso
      have := congrArg List.length h
      simp at this
    | cons x xs' =>
      rw [List.cons_append, List.cons_append] at h
      obtain ⟨h1, h2⟩ := List.cons.injEq .. ▸ h
      rcases ih h2 with ⟨l2', h3, h4⟩ | ⟨h3, h4, h5⟩
      · exact Or.inl ⟨l2', by rw [List.cons_append, h1, h3], h4⟩
      · exact Or.inr ⟨h3, by rw [h4, h1], h5⟩

theorem processTails_keys : ∀ (ts : List Str) (counts : List (Str × Nat)),
    (processTails counts ts).1.map Prod.fst = counts.map Prod.fst := by
  intro ts
  induction ts with
  | nil => intro counts; rfl
  | cons x rest ih =>
    intro counts
    rw [(processTails_cons counts x rest).1, ih, decCount_keys]

theorem kahn_step {pairs : List (Str × Str)} {counts : List (Str × Nat)}
    {queue out : List Str} {h : Str}
    (inv : KahnInv pairs counts (h :: queue) out) :
    KahnInv pairs (processTails counts (tailsOf h (collectGraph pairs).2)).1
      (queue ++ (processTails counts (tailsOf h (collectGraph pairs).2)).2)
      (out ++ [h]) := by
  set ts := tailsOf h (collectGraph pairs).2 with hts
  set counts' := (processTails counts ts).1 with hc'
  set newly := (processTails counts ts).2 with hnw
  have hcnt : ∀ t, ts.count t = pairs.countP (fun e => decide (e.1 = h ∧ e.2 = t)) :=
    fun t => count_tailsOf h t pairs
  have hP1 : ∀ t, countOf t counts' = (countOf t counts).map (fun m => m - ts.count t) :=
    fun t => processTails_countOf ts counts t
  have hnodup0 := inv.nodup
  have hout_h : h ∉ out := by
    rcases List.nodup_append.1 hnodup0 with ⟨-, -, hdisj⟩
    intro hmem
    exact hdisj hmem (List.mem_cons_self h queue)
  have hrem' : ∀ t m, countOf t counts' = some m →
      m = remainingDeg pairs (out ++ [h]) t := by
    intro t m hm
    rw [hP1 t] at hm
    cases hc : countOf t counts with
    | none => rw [hc] at hm; simp at hm
    | some m0 =>
      rw [hc] at hm
      simp at hm
      have hold := inv.remaining t m0 hc
      have hsplit := @remainingDeg_append_one pairs _ _ t hout_h
      rw [hcnt t] at hm
      omega
  have base : ((out ++ [h]) ++ queue).Nodup := by
    have heq : out ++ h :: queue = (out ++ [h]) ++ queue := by simp
    rw [← heq]
    exact hnodup0
  have hnn : newly.Nodup := processTails_nodup ts counts
  have hfresh : ∀ a ∈ newly, a ∉ out ++ h :: queue := by
    intro a hmem ha
    obtain ⟨m, hm, h1, _⟩ := (processTails_mem ts counts a).1 hmem
    rcases inv.scheduled_zero a ha with h2 | h2 <;> rw [h2] at hm
    · exact absurd hm (by simp)
    · have : m = 0 := by injection hm.symm
      omega
  refine ⟨?_, ?_, ?_, hrem', ?_, ?_, ?_, ?_⟩
  · -- nodup
    have heq : (out ++ [h]) ++ (queue ++ newly) = ((out ++ [h]) ++ queue) ++ newly := by
      simp
    rw [heq]
    refine List.Nodup.append base hnn ?_
    intro a ha hmem
    refine hfresh a hmem ?_
    simp only [List.mem_append, List.mem_singleton] at ha
    simp only [List.mem_append, List.mem_cons]
    tauto
  · -- keysNodup
    rw [hc', processTails_keys]
    exact inv.keysNodup
  · -- entries
    intro t
    rw [hP1 t, ← inv.entries t]
    cases countOf t counts <;> simp
  · -- scheduled_zero
    intro n hn
    by_cases hnew : n ∈ newly
    · obtain ⟨m, hm, h1, h2⟩ := (processTails_mem ts counts n).1 hnew
      right
      rw [hP1 n, hm]
      simp
      omega
    · have hold : n ∈ out ++ h :: queue := by
        simp only [List.mem_append, List.mem_cons, List.mem_singleton,
          List.not_mem_nil, or_false] at hn ⊢
        tauto
      rcases inv.scheduled_zero n hold with h2 | h2
      · left
        rw [hP1 n, h2]
        rfl
      · right
        rw [hP1 n, h2]
        simp
  · -- drained
    intro n hzero
    rw [hP1 n] at hzero
    cases hc0 : countOf n counts with
    | none =>
      rw [hc0] at hzero
      exact absurd hzero (by simp)
    | some m =>
      rw [hc0] at hzero
      simp at hzero
      by_cases hm0 : m = 0
      · subst hm0
        have := inv.drained n hc0
        simp only [List.mem_append, List.mem_cons] at this
        simp only [List.mem_append, List.mem_singleton]
        tauto
      · have hmem : n ∈ newly :=
          (processTails_mem ts counts n).2 ⟨m, hc0, by omega, by omega⟩
        simp only [List.mem_append]
        tauto
  · -- headsIn
    intro n hmemf hdeg
    have := inv.headsIn n hmemf hdeg
    simp only [List.mem_append, List.mem_cons] at this
    simp only [List.mem_append, List.mem_singleton]
    tauto
  · -- order
    intro e he l1 l2 hsplit
    rcases append_singleton_split hsplit with ⟨l2', hxs, -⟩ | ⟨hth, hl1, -⟩
    · exact inv.order e he l1 l2' hxs
    · rw [hl1]
      have hh : h ∈ out ++ h :: queue :=
        List.mem_append_right _ (List.mem_cons_self h queue)
      rcases inv.scheduled_zero h hh with h2 | h2
      · exfalso
        have hin : 0 < inDeg pairs h := by
          rw [inDeg]
          exact List.countP_pos.2 ⟨e, he, by simp [hth]⟩
        have := (inv.entries h).2 hin
        rw [h2] at this
        simp at this
      · have h0 : (0 : Nat) = remainingDeg pairs out h := inv.remaining h 0 h2
        have hmem : (e.1, h) ∈ pairs := by
          rw [← hth]
          simpa using he
        exact remainingDeg_zero_mem h0.symm hmem

theorem kahnLoopF_inv : ∀ (fuel : Nat) {pairs : List (Str × Str)}
    {counts : List (Str × Nat)} {queue out : List Str},
    countsSum counts + queue.length < fuel →
    KahnInv pairs counts queue out →
    KahnInv pairs (kahnLoopF (collectGraph pairs).2 fuel counts queue out).2 []
        (kahnLoopF (collectGraph pairs).2 fuel counts queue out).1 ∧
      ∀ n, n ∈ out ++ queue →
        n ∈ (kahnLoopF (collectGraph pairs).2 fuel counts queue out).1 := by
  intro fuel
  induction fuel with
  | zero =>
    intro pairs counts queue out hfuel _
    omega
  | succ f ih =>
    intro pairs counts queue out hfuel inv
    cases queue with
    | nil =>
      constructor
      · exact inv
      · intro n hn
        simpa using hn
    | cons h queue =>
      have step := kahn_step inv
      have hm := processTails_measure (tailsOf h (collectGraph pairs).2) counts
      have hfuel' : countsSum (processTails counts (tailsOf h (collectGraph pairs).2)).1 +
          (queue ++ (processTails counts (tailsOf h (collectGraph pairs).2)).2).length <
            f := by
        rw [List.length_append]
        simp only [List.length_cons] at hfuel
        omega
      obtain ⟨finv, fsub⟩ := ih hfuel' step
      rw [show kahnLoopF (collectGraph pairs).2 (f + 1) counts (h :: queue) out =
          kahnLoopF (collectGraph pairs).2 f
            (processTails counts (tailsOf h (collectGraph pairs).2)).1
            (queue ++ (processTails counts (tailsOf h (collectGraph pairs).2)).2)
            (out ++ [h]) from rfl]
      refine ⟨finv, ?_⟩
      intro n hn
      refine fsub n ?_
      simp only [List.mem_append, List.mem_cons, List.mem_singleton] at hn ⊢
      tauto

theorem kahn_init (pairs : List (Str × Str)) :
    KahnInv pairs (collectGraph pairs).1
      (((collectGraph pairs).2.map Prod.fst).filter
        (fun h => countOf h (collectGraph pairs).1 = none)) [] := by
  refine ⟨?_, collect_counts_keys_nodup pairs, ?_, ?_, ?_, ?_, ?_, ?_⟩
  · rw [List.nil_append]
    exact List.Nodup.filter _ (collect_tails_keys_nodup pairs)
  · intro t
    rw [countOf_collect]
    by_cases hd : inDeg pairs t = 0
    · rw [if_pos hd]
      simp [hd]
    · rw [if_neg hd]
      simp
      omega
  · intro t m hm
    rw [countOf_collect] at hm
    by_cases hd : inDeg pairs t = 0
    · rw [if_pos hd] at hm
      exact absurd hm (by simp)
    · rw [if_neg hd] at hm
      have : inDeg pairs t = m := by injection hm
      rw [remainingDeg_nil_out, ← this]
  · intro n hn
    rw [List.nil_append] at hn
    left
    have := List.of_mem_filter hn
    simpa using this
  · intro n hn
    rw [countOf_collect] at hn
    by_cases hd : inDeg pairs n = 0
    · rw [if_pos hd] at hn
      exact absurd hn (by simp)
    · rw [if_neg hd] at hn
      have : inDeg pairs n = 0 := by injection hn
      exact absurd this hd
  · intro n hmem hdeg
    rw [List.nil_append]
    refine List.mem_filter.2 ⟨?_, ?_⟩
    · exact (mem_collect_tails_keys n pairs).2 hmem
    · rw [countOf_collect, if_pos hdeg]
      simp
  · intro e _ l1 l2 hsplit
    exact absurd hsplit.symm (by simp)

theorem topological_sort_spec (pairs : List (Str × Str)) :
    ∃ countsF : List (Str × Nat),
      KahnInv pairs countsF [] (topological_sort pairs).sorted ∧
      (topological_sort pairs).cyclic =
        (countsF.filter (fun p => p.2 ≠ 0)).map Prod.fst ∧
      ∀ n ∈ ((collectGraph pairs).2.map Prod.fst).filter
          (fun h => countOf h (collectGraph pairs).1 = none),
        n ∈ (topological_sort pairs).sorted := by
  have hspec := @kahnLoopF_inv
    (countsSum (collectGraph pairs).1 +
      (((collectGraph pairs).2.map Prod.fst).filter
        (fun h => countOf h (collectGraph pairs).1 = none)).length + 1)
    pairs (collectGraph pairs).1
    (((collectGraph pairs).2.map Prod.fst).filter
      (fun h => countOf h (collectGraph pairs).1 = none)) []
    (by omega) (kahn_init pairs)
  refine ⟨(kahnLoopF (collectGraph pairs).2 _ (collectGraph pairs).1 _ []).2,
    hspec.1, rfl, ?_⟩
  intro n hn
  exact hspec.2 n (by simpa using hn)

theorem sorted_nodup (pairs : List (Str × Str)) :
    (topological_sort pairs).sorted.Nodup := by
  obtain ⟨F, inv, -, -⟩ := topological_sort_spec pairs
  have := inv.nodup
  simpa using this

theorem sorted_order {pairs : List (Str × Str)} {e : Str × Str} (he : e ∈ pairs)
    {l1 l2 : List Str} (hsp : (topological_sort pairs).sorted = l1 ++ e.2 :: l2) :
    e.1 ∈ l1 := by
  obtain ⟨F, inv, -, -⟩ := topological_sort_spec pairs
  exact inv.order e he l1 l2 hsp

theorem node_mem_sorted {pairs : List (Str × Str)}
    (hcy : (topological_sort pairs).cyclic = []) {n : Str}
    (hn : n ∈ pairs.map Prod.fst ∨ n ∈ pairs.map Prod.snd) :
    n ∈ (topological_sort pairs).sorted := by
  obtain ⟨F, inv, hceq, -⟩ := topological_sort_spec pairs
  rw [hceq] at hcy
  have hfe : F.filter (fun p => p.2 ≠ 0) = [] := List.map_eq_nil.1 hcy
  have hall0 : ∀ t m, countOf t F = some m → m = 0 := by
    intro t m hm
    by_contra hm0
    have hmem : (t, m) ∈ F.filter (fun p => p.2 ≠ 0) :=
      List.mem_filter.2 ⟨mem_of_countOf hm, by simpa using hm0⟩
    rw [hfe] at hmem
    simp at hmem
  rcases hn with hn | hn
  · cases hc : countOf n F with
    | none =>
      have hdeg0 : inDeg pairs n = 0 := by
        by_contra hd
        have := (inv.entries n).2 (by omega)
        rw [hc] at this
        simp at this
      have := inv.headsIn n hn hdeg0
      simpa using this
    | some m =>
      have hm0 := hall0 _ _ hc
      subst hm0
      have := inv.drained n hc
      simpa using this
  · obtain ⟨e, he, hne⟩ := List.mem_map.1 hn
    have hpos : 0 < inDeg pairs n := by
      rw [inDeg]
      exact List.countP_pos.2 ⟨e, he, by simp [hne]⟩
    cases hc : countOf n F with
    | none =>
      have := (inv.entries n).2 hpos
      rw [hc] at this
      simp at this
    | some m =>
      have hm0 := hall0 _ _ hc
      subst hm0
      have := inv.drained n hc
      simpa using this

theorem sorted_order_trans {pairs : List (Str × Str)} :
    ∀ {a b : Str}, Relation.TransGen (edgeRel pairs) a b →
    ∀ l1 l2, (topological_sort pairs).sorted = l1 ++ b :: l2 → a ∈ l1 := by
  intro a b hab
  induction hab with
  | single h =>
    intro l1 l2 hsp
    exact sorted_order h hsp
  | tail hab h ih =>
    rename_i b c
    intro l1 l2 hsp
    have hc := sorted_order h hsp
    obtain ⟨l1', l1'', hsp2⟩ := List.append_of_mem hc
    have hmem := ih l1' (l1'' ++ c :: l2) (by rw [hsp, hsp2]; simp)
    rw [hsp2]
    exact List.mem_append_left _ hmem

theorem acyclic_of_cyclic_nil {pairs : List (Str × Str)}
    (hcy : (topological_sort pairs).cyclic = []) : ¬ cycleExists pairs := by
  rintro ⟨n, hn⟩
  have hlast : ∃ y, (y, n) ∈ pairs := by
    cases hn with
    | single h => exact ⟨n, h⟩
    | tail _ h => exact ⟨_, h⟩
  obtain ⟨y, hy⟩ := hlast
  have hnmem : n ∈ (topological_sort pairs).sorted :=
    node_mem_sorted hcy (Or.inr (by
      have := List.mem_map_of_mem Prod.snd hy
      simpa using this))
  obtain ⟨l1, l2, hsp⟩ := List.append_of_mem hnmem
  have hin : n ∈ l1 := sorted_order_trans hn l1 l2 hsp
  have hnd := sorted_nodup pairs
  rw [hsp] at hnd
  rcases List.nodup_append.1 hnd with ⟨-, -, hdisj⟩
  exact hdisj hin (List.mem_cons_self _ _)

theorem cyclic_nil_of_acyclic {pairs : List (Str × Str)}
    (hnc : ¬ cycleExists pairs) : (topological_sort pairs).cyclic = [] := by
  obtain ⟨F, inv, hceq, -⟩ := topological_sort_spec pairs
  by_contra hne
  rw [hceq] at hne
  have hex : ∃ t m, countOf t F = some m ∧ m ≠ 0 := by
    cases hf : F.filter (fun p => p.2 ≠ 0) with
    | nil => rw [hf] at hne; simp at hne
    | cons p r =>
      have hpmem : p ∈ F.filter (fun q => q.2 ≠ 0) := hf ▸ List.mem_cons_self p r
      obtain ⟨hmem, hp2⟩ := List.mem_filter.1 hpmem
      refine ⟨p.1, p.2, countOf_of_mem_nodup inv.keysNodup (by simpa using hmem),
        by simpa using hp2⟩
  obtain ⟨x0, m0, hx0, hm0⟩ := hex
  have hstep : ∀ x, (∃ m, countOf x F = some m ∧ 1 ≤ m) →
      ∃ g, (∃ m, countOf g F = some m ∧ 1 ≤ m) ∧ (g, x) ∈ pairs := by
    rintro x ⟨m, hm, h1⟩
    have hrem := inv.remaining x m hm
    have hpos : 0 < remainingDeg pairs (topological_sort pairs).sorted x := by omega
    rw [remainingDeg] at hpos
    obtain ⟨e, he, hpe⟩ := List.countP_pos.1 hpos
    simp at hpe
    obtain ⟨he2, hnotout⟩ := hpe
    refine ⟨e.1, ?_, by rw [← he2]; simpa using he⟩
    cases hc : countOf e.1 F with
    | none =>
      exfalso
      have hins : ¬ 0 < inDeg pairs e.1 := by
        rw [← inv.entries]
        simp [hc]
      have hdeg0 : inDeg pairs e.1 = 0 := by omega
      have hhead : e.1 ∈ pairs.map Prod.fst := List.mem_map_of_mem Prod.fst he
      have := inv.headsIn e.1 hhead hdeg0
      rw [List.append_nil] at this
      exact absurd this hnotout
    | some m' =>
      cases m' with
      | zero =>
        exfalso
        have := inv.drained e.1 hc
        rw [List.append_nil] at this
        exact absurd this hnotout
      | succ k => exact ⟨k + 1, rfl, by omega⟩
  have hstep' : ∀ x : {x : Str // ∃ m, countOf x F = some m ∧ 1 ≤ m},
      ∃ y : {x : Str // ∃ m, countOf x F = some m ∧ 1 ≤ m}, (y.1, x.1) ∈ pairs := by
    rintro ⟨x, hx⟩
    obtain ⟨g, hg, hgx⟩ := hstep x hx
    exact ⟨⟨g, hg⟩, hgx⟩
  choose nxt hnxt using hstep'
  let f : Nat → {x : Str // ∃ m, countOf x F = some m ∧ 1 ≤ m} :=
    fun n => Nat.rec ⟨x0, ⟨m0, hx0, by omega⟩⟩ (fun _ prev => nxt prev) n
  have hf : ∀ i, ((f (i + 1)).1, (f i).1) ∈ pairs := fun i => hnxt (f i)
  have hchain : ∀ d i, Relation.TransGen (edgeRel pairs) (f (i + d + 1)).1 (f i).1 := by
    intro d
    induction d with
    | zero => intro i; exact Relation.TransGen.single (hf i)
    | succ d ihd =>
      intro i
      exact Relation.TransGen.head (hf (i + d + 1)) (ihd i)
  have hmapsto : ∀ i ∈ Finset.range ((F.map Prod.fst).length + 1),
      (fun i => (f i).1) i ∈ (F.map Prod.fst).toFinset := by
    intro i _
    obtain ⟨m, hm, _⟩ := (f i).2
    exact List.mem_toFinset.2 (List.mem_map_of_mem Prod.fst (mem_of_countOf hm))
  have hcard : (F.map Prod.fst).toFinset.card <
      (Finset.range ((F.map Prod.fst).length + 1)).card := by
    rw [Finset.card_range]
    have := List.toFinset_card_le (F.map Prod.fst)
    omega
  obtain ⟨i, hi, j, hj, hij, hfe⟩ :=
    Finset.exists_ne_map_eq_of_card_lt_of_maps_to hcard hmapsto
  rcases Nat.lt_or_ge i j with hlt | hge
  · have hd : i + (j - i - 1) + 1 = j := by omega
    have hch := hchain (j - i - 1) i
    rw [hd] at hch
    refine hnc ⟨(f j).1, ?_⟩
    rw [hfe] at hch
    exact hch
  · have hij' : j < i := by omega
    have hd : j + (i - j - 1) + 1 = i := by omega
    have hch := hchain (i - j - 1) j
    rw [hd] at hch
    refine hnc ⟨(f i).1, ?_⟩
    rw [← hfe] at hch
    exact hch

/-! ## Lemmas about environment operations and the resolver -/

theorem envLookup_eq_none_iff {k : Str} : ∀ {env : Env},
    envLookup k env = none ↔ k ∉ envKeys env := by
  intro env
  induction env with
  | nil => simp [envLookup, envKeys]
  | cons kv r ih =>
    obtain ⟨k', v⟩ := kv
    by_cases hk : k' = k
    · subst hk
      simp [envLookup, envKeys]
    · simp only [envLookup, if_neg hk, ih, envKeys, List.map_cons, List.mem_cons,
        not_or]
      constructor
      · intro h
        exact ⟨fun hh => hk hh.symm, h⟩
      · intro h
        exact h.2

theorem envLookup_isSome_iff {k : Str} {env : Env} :
    (envLookup k env).isSome ↔ k ∈ envKeys env := by
  cases h : envLookup k env with
  | none =>
    simp only [Option.isSome_none]
    simp [envLookup_eq_none_iff.1 h]
  | some v =>
    simp only [Option.isSome_some]
    have hx : ¬ envLookup k env = none := by simp [h]
    rw [envLookup_eq_none_iff] at hx
    simp only [not_not] at hx
    simp [hx]

theorem envLookup_dictSet_self (k v : Str) : ∀ (env : Env),
    envLookup k (dictSet k v env) = some v := by
  intro env
  induction env with
  | nil => simp [dictSet, envLookup]
  | cons kv r ih =>
    obtain ⟨k', v'⟩ := kv
    by_cases hk : k' = k
    · rw [dictSet, if_pos hk, envLookup, if_pos hk]
    · rw [dictSet, if_neg hk, envLookup, if_neg hk, ih]

theorem envLookup_dictSet_other {k key v : Str} (hne : k ≠ key) : ∀ (env : Env),
    envLookup k (dictSet key v env) = envLookup k env := by
  intro env
  induction env with
  | nil =>
    have hx : ¬ key = k := fun hh => hne hh.symm
    simp [dictSet, envLookup, hx]
  | cons kv r ih =>
    obtain ⟨k', v'⟩ := kv
    by_cases hk : k' = key
    · rw [dictSet, if_pos hk, envLookup, envLookup]
      by_cases hkk : k' = k
      · exact absurd (hkk ▸ hk) (fun hh => hne hh)
      · rw [if_neg hkk, if_neg hkk]
    · rw [dictSet, if_neg hk, envLookup, envLookup]
      by_cases hkk : k' = k
      · rw [if_pos hkk, if_pos hkk]
      · rw [if_neg hkk, if_neg hkk, ih]

theorem envKeys_dictSet_mem {key : Str} (v : Str) : ∀ {env : Env},
    key ∈ envKeys env → envKeys (dictSet key v env) = envKeys env := by
  intro env hmem
  induction env with
  | nil => simp [envKeys] at hmem
  | cons kv r ih =>
    obtain ⟨k', v'⟩ := kv
    by_cases hk : k' = key
    · rw [dictSet, if_pos hk, envKeys, envKeys, List.map_cons, List.map_cons]
    · rw [dictSet, if_neg hk, envKeys, envKeys, List.map_cons, List.map_cons]
      have hmem' : key ∈ envKeys r := by
        rw [envKeys, List.map_cons] at hmem
        rcases List.mem_cons.1 hmem with h1 | h1
        · exact absurd h1.symm hk
        · exact h1
      rw [show (dictSet key v r).map Prod.fst = envKeys (dictSet key v r) from rfl,
        ih hmem', envKeys]

theorem mem_dictSet {kv : Str × Str} {key v : Str} : ∀ {env : Env},
    kv ∈ dictSet key v env → kv.2 = v ∨ kv ∈ env := by
  intro env hmem
  induction env with
  | nil =>
    rw [dictSet] at hmem
    rcases List.mem_cons.1 hmem with h1 | h1
    · left
      rw [h1]
    · simp at h1
  | cons p r ih =>
    obtain ⟨k', v'⟩ := p
    by_cases hk : k' = key
    · rw [dictSet, if_pos hk] at hmem
      rcases List.mem_cons.1 hmem with h1 | h1
      · left
        rw [h1]
      · right
        exact List.mem_cons_of_mem _ h1
    · rw [dictSet, if_neg hk] at hmem
      rcases List.mem_cons.1 hmem with h1 | h1
      · right
        exact h1 ▸ List.mem_cons_self _ _
      · rcases ih h1 with h2 | h2
        · exact Or.inl h2
        · exact Or.inr (List.mem_cons_of_mem _ h2)

theorem envLookup_dictPop_other {k key : Str} (hne : k ≠ key) : ∀ (env : Env),
    envLookup k (dictPop key env) = envLookup k env := by
  intro env
  induction env with
  | nil => rfl
  | cons kv r ih =>
    obtain ⟨k', v'⟩ := kv
    by_cases hk : k' = key
    · rw [dictPop, if_pos hk, envLookup, if_neg (hk ▸ fun hh => hne hh.symm)]
    · rw [dictPop, if_neg hk, envLookup, envLookup]
      by_cases hkk : k' = k
      · rw [if_pos hkk, if_pos hkk]
      · rw [if_neg hkk, if_neg hkk, ih]

theorem envLookup_dictPop_self {key : Str} : ∀ {env : Env},
    (envKeys env).Nodup → envLookup key (dictPop key env) = none := by
  intro env hnd
  induction env with
  | nil => rfl
  | cons kv r ih =>
    obtain ⟨k', v'⟩ := kv
    rw [envKeys, List.map_cons] at hnd
    by_cases hk : k' = key
    · rw [dictPop, if_pos hk]
      rw [envLookup_eq_none_iff]
      intro hmem
      exact (List.nodup_cons.1 hnd).1 (hk ▸ hmem)
    · rw [dictPop, if_neg hk, envLookup, if_neg hk]
      exact ih (List.nodup_cons.1 hnd).2

theorem mem_dictPop {kv : Str × Str} {key : Str} : ∀ {env : Env},
    kv ∈ dictPop key env → kv ∈ env := by
  intro env hmem
  induction env with
  | nil => exact hmem
  | cons p r ih =>
    obtain ⟨k', v'⟩ := p
    by_cases hk : k' = key
    · rw [dictPop, if_pos hk] at hmem
      exact List.mem_cons_of_mem _ hmem
    · rw [dictPop, if_neg hk] at hmem
      rcases List.mem_cons.1 hmem with h1 | h1
      · exact h1 ▸ List.mem_cons_self _ _
      · exact List.mem_cons_of_mem _ (ih h1)

theorem mem_dependenciesOf {env : Env} {a d : Str} :
    (a, d) ∈ dependenciesOf env ↔
      ∃ v, (a, v) ∈ env ∧ d ∈ findPlaceholders v ∧ d ≠ a := by
  rw [dependenciesOf, List.mem_flatMap]
  constructor
  · rintro ⟨kv, hkv, hmem⟩
    rcases List.mem_map.1 hmem with ⟨d', hd', heq⟩
    obtain ⟨h1, h2⟩ := Prod.mk.injEq .. ▸ heq.symm
    obtain ⟨hfp, hne⟩ := List.mem_filter.1 hd'
    subst h1
    subst h2
    exact ⟨kv.2, by simpa using hkv, hfp, by simpa using hne⟩
  · rintro ⟨v, hv, hfp, hne⟩
    refine ⟨(a, v), hv, List.mem_map.2 ⟨d, List.mem_filter.2 ⟨hfp, by simpa using hne⟩,
      rfl⟩⟩

theorem no_self_edge (env : Env) (k : Str) : (k, k) ∉ dependenciesOf env := by
  intro h
  obtain ⟨v, -, -, hne⟩ := mem_dependenciesOf.1 h
  exact hne rfl

theorem mem_of_split_split {l u v t1 t2 : List Str} {n k : Str}
    (hnd : l.Nodup) (hA : l = u ++ n :: v) (hB : l = t1 ++ k :: t2) (hk : k ∈ v) :
    n ∈ t1 := by
  have heq : u ++ n :: v = t1 ++ k :: t2 := by rw [← hA, hB]
  have hnk : n ≠ k := by
    intro hh
    rw [hA] at hnd
    rcases List.nodup_append.1 hnd with ⟨-, h2, -⟩
    exact (List.nodup_cons.1 h2).1 (hh ▸ hk)
  rcases List.append_eq_append_iff.1 heq with ⟨a', ha1, ha2⟩ | ⟨c', hc1, hc2⟩
  · cases a' with
    | nil =>
      rw [List.nil_append] at ha2
      exact absurd (List.cons.injEq .. ▸ ha2).1 hnk
    | cons x a'' =>
      rw [List.cons_append] at ha2
      obtain ⟨hx, -⟩ := List.cons.injEq .. ▸ ha2
      rw [ha1, ← hx]
      exact List.mem_append_right _ (List.mem_cons_self _ _)
  · exfalso
    cases c' with
    | nil =>
      rw [List.append_nil] at hc1
      rw [List.nil_append] at hc2
      exact hnk (List.cons.injEq .. ▸ hc2).1.symm
    | cons x c'' =>
      rw [List.cons_append] at hc2
      obtain ⟨hx, -⟩ := List.cons.injEq .. ▸ hc2
      have hku : k ∈ u := by
        rw [hc1, ← hx]
        exact List.mem_append_right _ (List.mem_cons_self _ _)
      rw [hA] at hnd
      rcases List.nodup_append.1 hnd with ⟨-, -, hdisj⟩
      exact hdisj hku (List.mem_cons_of_mem _ hk)

theorem envLookup_of_mem_nodup {k v : Str} : ∀ {env : Env},
    (envKeys env).Nodup → (k, v) ∈ env → envLookup k env = some v := by
  intro env hnd hm
  induction env with
  | nil => simp at hm
  | cons p r ih =>
    obtain ⟨k', v'⟩ := p
    rw [envKeys, List.map_cons] at hnd
    rcases List.mem_cons.1 hm with h1 | h1
    · obtain ⟨hk, hv⟩ := Prod.mk.injEq .. ▸ h1
      rw [envLookup, if_pos hk.symm, hv]
    · by_cases hk : k' = k
      · subst hk
        have : k' ∈ r.map Prod.fst := by
          have := List.mem_map_of_mem Prod.fst h1
          simpa using this
        exact absurd this (List.nodup_cons.1 hnd).1
      · rw [envLookup, if_neg hk]
        exact ih (List.nodup_cons.1 hnd).2 h1

theorem envKeys_dictPop_subset {key x : Str} : ∀ {env : Env},
    x ∈ envKeys (dictPop key env) → x ∈ envKeys env := by
  intro env hmem
  rw [envKeys, List.mem_map] at hmem
  obtain ⟨kv, hkv, hx⟩ := hmem
  rw [envKeys, List.mem_map]
  exact ⟨kv, mem_dictPop hkv, hx⟩

theorem formatKey_keys {cur : Env} (key' : Str) :
    envKeys (formatKey cur key') = envKeys cur := by
  rw [formatKey]
  cases hl : envLookup key' cur with
  | none => rfl
  | some v =>
    have hmem : key' ∈ envKeys cur := envLookup_isSome_iff.1 (by simp [hl])
    exact envKeys_dictSet_mem _ hmem

theorem formatKey_wf {sep : Char} {cur : Env} {key' : Str}
    (hwfv : ∀ kv ∈ cur, WFStr sep kv.2) :
    ∀ kv ∈ formatKey cur key', WFStr sep kv.2 := by
  intro kv hkv
  rw [formatKey] at hkv
  cases hl : envLookup key' cur with
  | none =>
    rw [hl] at hkv
    exact hwfv kv hkv
  | some v =>
    rw [hl] at hkv
    rcases mem_dictSet hkv with h1 | h1
    · rw [h1]
      exact (pformat_wf (hwfv _ (envLookup_mem hl))
        (fun q hq => hwfv q (mem_dictPop hq))).1
    · exact hwfv kv h1

theorem formatKey_lookup_other {cur : Env} {key' x : Str} (hne : x ≠ key') :
    envLookup x (formatKey cur key') = envLookup x cur := by
  rw [formatKey]
  cases hl : envLookup key' cur with
  | none => rfl
  | some v => exact envLookup_dictSet_other hne cur

theorem formatKey_lookup_self {cur : Env} {key' u : Str}
    (hl : envLookup key' cur = some u) :
    envLookup key' (formatKey cur key') =
      some (pformat u (dictPop key' cur) none) := by
  rw [formatKey, hl]
  exact envLookup_dictSet_self _ _ cur

theorem formatPass_track {sep : Char} {env : Env} (hnd : (envKeys env).Nodup)
    {k v : Str} :
    ∀ (ks : List Str) (cur : Env),
    envKeys cur = envKeys env →
    (∀ kv ∈ cur, WFStr sep kv.2) →
    (∃ w, envLookup k cur = some w ∧ WFStr sep w ∧
      ∀ n ∈ findPlaceholders v, (n = k ∨ n ∉ envKeys env) →
        n ∈ findPlaceholders w) →
    envKeys (formatPass cur ks) = envKeys env ∧
    (∀ kv ∈ formatPass cur ks, WFStr sep kv.2) ∧
    (∃ w, envLookup k (formatPass cur ks) = some w ∧ WFStr sep w ∧
      ∀ n ∈ findPlaceholders v, (n = k ∨ n ∉ envKeys env) →
        n ∈ findPlaceholders w) := by
  intro ks
  induction ks with
  | nil =>
    intro cur h1 h2 h3
    exact ⟨h1, h2, h3⟩
  | cons key' rest ih =>
    intro cur h1 h2 h3
    rw [formatPass, List.foldl_cons]
    have h1' : envKeys (formatKey cur key') = envKeys env := by
      rw [formatKey_keys, h1]
    have h2' : ∀ kv ∈ formatKey cur key', WFStr sep kv.2 := formatKey_wf h2
    refine ih (formatKey cur key') h1' h2' ?_
    obtain ⟨w, hw, hwf, hsurv⟩ := h3
    by_cases hk : k = key'
    · subst hk
      refine ⟨pformat w (dictPop k cur) none, formatKey_lookup_self hw,
        (pformat_wf hwf (fun q hq => h2 q (mem_dictPop hq))).1, ?_⟩
      intro n hn hkeep
      have hlookup : envLookup n (dictPop k cur) = none := by
        rcases hkeep with hkeep | hkeep
        · subst hkeep
          exact envLookup_dictPop_self (h1 ▸ hnd)
        · rw [envLookup_eq_none_iff]
          intro hmem
          exact hkeep (h1 ▸ envKeys_dictPop_subset hmem)
      have hfp := (@pformat_wf _ _ (dictPop k cur) hwf
        (fun q hq => h2 q (mem_dictPop hq))).2
      rw [hfp, List.mem_flatMap]
      refine ⟨n, hsurv n hn hkeep, ?_⟩
      rw [hlookup]
      exact List.mem_singleton.2 rfl
    · exact ⟨w, by rw [formatKey_lookup_other hk]; exact hw, hwf, hsurv⟩

theorem dictSet_append {k : Str} (v : Str) : ∀ {env : Env},
    k ∉ envKeys env → dictSet k v env = env ++ [(k, v)] := by
  intro env hmem
  induction env with
  | nil => rfl
  | cons p r ih =>
    obtain ⟨k', v'⟩ := p
    rw [envKeys, List.map_cons] at hmem
    simp only [List.mem_cons, not_or] at hmem
    rw [dictSet, if_neg (fun hh => hmem.1 hh.symm), List.cons_append,
      ih (by rw [envKeys]; exact hmem.2)]

theorem dynamicPhase_go_id {sep : Char} {env : Env}
    (hnames : ∀ kv ∈ env, nameOK sep kv.1) (allow : Bool) :
    ∀ (rest acc : Env),
    (∀ kv ∈ rest, kv ∈ env) →
    envKeys (acc ++ rest) = envKeys env →
    (envKeys env).Nodup →
    dynamicPhase.go env allow rest acc = .ok (acc ++ rest) := by
  intro rest
  induction rest with
  | nil =>
    intro acc _ _ _
    rw [dynamicPhase.go, List.append_nil]
  | cons kv rest' ih =>
    intro acc hsub hkeys hnd
    obtain ⟨k, v⟩ := kv
    have hkname : nameOK sep k := hnames (k, v) (hsub _ (List.mem_cons_self _ _))
    have hnk : pformat k env none = k :=
      pformat_of_no_brace env none (fun c hc => (hkname.2 c hc).1)
    have hndacc : (envKeys (acc ++ (k, v) :: rest')).Nodup := hkeys ▸ hnd
    have hknotacc : k ∉ envKeys acc := by
      rw [envKeys, List.map_append] at hndacc
      rcases List.nodup_append.1 hndacc with ⟨-, -, hdisj⟩
      intro hmem
      refine hdisj hmem ?_
      simp [envKeys]
    have hlook : envLookup k acc = none := envLookup_eq_none_iff.2 hknotacc
    rw [dynamicPhase.go, hnk, hlook]
    simp only [Option.isSome_none, Bool.false_eq_true, if_false]
    rw [dictSet_append v hknotacc]
    have := ih (acc ++ [(k, v)])
      (fun q hq => hsub q (List.mem_cons_of_mem _ hq))
      (by rw [← hkeys]; simp) hnd
    rw [this]
    simp

theorem dynamicPhase_id {sep : Char} {env : Env} (hnd : (envKeys env).Nodup)
    (hnames : ∀ kv ∈ env, nameOK sep kv.1) (allow : Bool) :
    dynamicPhase env allow = .ok env := by
  rw [dynamicPhase]
  have := dynamicPhase_go_id hnames allow env [] (fun q hq => hq)
    (by simp) hnd
  rw [this]
  rfl

theorem cleanupPass_lookup (sep : Char) (k : Str) : ∀ (env : Env),
    envLookup k (cleanupPass sep env) = (envLookup k env).map (cleanupValue sep) := by
  intro env
  induction env with
  | nil => rfl
  | cons kv r ih =>
    obtain ⟨k', v⟩ := kv
    rw [cleanupPass, List.map_cons]
    by_cases hk : k' = k
    · rw [show envLookup k (((k', v).1, cleanupValue sep (k', v).2) :: List.map
        (fun kv => (kv.1, cleanupValue sep kv.2)) r) = some (cleanupValue sep v) from
          by rw [envLookup, if_pos hk],
        envLookup, if_pos hk]
      rfl
    · rw [envLookup, if_neg hk, envLookup, if_neg hk, ← ih, cleanupPass]

theorem mem_of_split_split' {l u v t1 t2 : List Str} {n k : Str}
    (hnd : l.Nodup) (hA : l = u ++ n :: v) (hB : l = t1 ++ k :: t2) (hk : k ∈ u) :
    n ∈ t2 := by
  have hrev : l.reverse = v.reverse ++ n :: u.reverse := by
    rw [hA]
    simp
  have hrev2 : l.reverse = t2.reverse ++ k :: t1.reverse := by
    rw [hB]
    simp
  have := mem_of_split_split (List.nodup_reverse.2 hnd) hrev hrev2
    (List.mem_reverse.2 hk)
  exact List.mem_reverse.1 this

theorem formatPass_resolve {sep : Char} {env : Env}
    (hwf : envWF sep env) (hself : noSelfRef env) :
    ∀ (todo done : List Str) (cur : Env),
    (done ++ todo).Nodup →
    (∀ t1 k t2, todo = t1 ++ k :: t2 → ∀ n, (k, n) ∈ dependenciesOf env →
      n ∈ envKeys env → n ∈ done ++ t1) →
    envKeys cur = envKeys env →
    (∀ kv ∈ cur, WFStr sep kv.2) →
    (∀ x, x ∉ done → envLookup x cur = envLookup x env) →
    (∀ x w, x ∈ done → envLookup x cur = some w →
      ∀ n ∈ findPlaceholders w, n ∉ envKeys env) →
    envKeys (formatPass cur todo) = envKeys env ∧
    (∀ kv ∈ formatPass cur todo, WFStr sep kv.2) ∧
    (∀ x, x ∉ done ++ todo → envLookup x (formatPass cur todo) = envLookup x env) ∧
    (∀ x w, x ∈ done ++ todo → envLookup x (formatPass cur todo) = some w →
      ∀ n ∈ findPlaceholders w, n ∉ envKeys env) := by
  intro todo
  induction todo with
  | nil =>
    intro done cur hnd hdep hkeys hwfv huntouched hprocessed
    refine ⟨hkeys, hwfv, ?_, ?_⟩
    · intro x hx
      exact huntouched x (by simpa using hx)
    · intro x w hx hw
      exact hprocessed x w (by simpa using hx) hw
  | cons k rest ih =>
    intro done cur hnd hdep hkeys hwfv huntouched hprocessed
    have hknotdone : k ∉ done := by
      intro hmem
      rcases List.nodup_append.1 hnd with ⟨-, -, hdisj⟩
      exact hdisj hmem (List.mem_cons_self _ _)
    have hnd' : ((done ++ [k]) ++ rest).Nodup := by
      have heq : (done ++ [k]) ++ rest = done ++ k :: rest := by simp
      rw [heq]
      exact hnd
    have hdep' : ∀ t1 k' t2, rest = t1 ++ k' :: t2 →
        ∀ n, (k', n) ∈ dependenciesOf env → n ∈ envKeys env →
          n ∈ (done ++ [k]) ++ t1 := by
      intro t1 k' t2 hsp n hedge hkey
      have := hdep (k :: t1) k' t2 (by rw [hsp, List.cons_append]) n hedge hkey
      simpa using this
    rw [formatPass, List.foldl_cons]
    have hkeys' : envKeys (formatKey cur k) = envKeys env := by
      rw [formatKey_keys, hkeys]
    have hwfv' : ∀ kv ∈ formatKey cur k, WFStr sep kv.2 := formatKey_wf hwfv
    have huntouched' : ∀ x, x ∉ done ++ [k] →
        envLookup x (formatKey cur k) = envLookup x env := by
      intro x hx
      simp only [List.mem_append, List.mem_singleton, not_or] at hx
      rw [formatKey_lookup_other hx.2]
      exact huntouched x hx.1
    have hprocessed' : ∀ x w, x ∈ done ++ [k] →
        envLookup x (formatKey cur k) = some w →
        ∀ n ∈ findPlaceholders w, n ∉ envKeys env := by
      intro x w hx hw
      simp only [List.mem_append, List.mem_singleton] at hx
      rcases hx with hx | hx
      · have hxk : x ≠ k := fun hh => hknotdone (hh ▸ hx)
        rw [formatKey_lookup_other hxk] at hw
        exact hprocessed x w hx hw
      · subst hx
        cases hu : envLookup x cur with
        | none =>
          rw [formatKey, hu, hu] at hw
          exact absurd hw (by simp)
        | some u =>
          rw [formatKey_lookup_self hu] at hw
          have hueq : envLookup x env = some u := by rw [← huntouched x hknotdone, hu]
          have humem : (x, u) ∈ env := envLookup_mem hueq
          have huwf : WFStr sep u := hwf.2.2 (x, u) humem
          have hdata : ∀ q ∈ dictPop x cur, WFStr sep q.2 :=
            fun q hq => hwfv q (mem_dictPop hq)
          have hfp := (@pformat_wf _ _ (dictPop x cur) huwf hdata).2
          have hwinj : w = pformat u (dictPop x cur) none := by injection hw.symm
          subst hwinj
          rw [hfp]
          intro n hn hnkeys
          rw [List.mem_flatMap] at hn
          obtain ⟨n', hn', hmatch⟩ := hn
          have hn'k : n' ≠ x := by
            intro hh
            exact hself (x, u) humem (hh ▸ hn')
          have hedge : (x, n') ∈ dependenciesOf env ∨ n' ∉ envKeys env := by
            by_cases hk' : n' ∈ envKeys env
            · exact Or.inl (mem_dependenciesOf.2 ⟨u, humem, hn', hn'k⟩)
            · exact Or.inr hk'
          cases hlk : envLookup n' (dictPop x cur) with
          | none =>
            rw [hlk] at hmatch
            rw [List.mem_singleton] at hmatch
            have hnkeys' : n' ∈ envKeys env := hmatch ▸ hnkeys
            rcases hedge with hedge | hedge
            · -- n' is an already-processed key: its lookup cannot be none
              have hsome : (envLookup n' cur).isSome := by
                rw [envLookup_isSome_iff, hkeys]
                exact hnkeys'
              rw [← envLookup_dictPop_other hn'k cur] at hsome
              rw [hlk] at hsome
              simp at hsome
            · exact hedge hnkeys'
          | some y =>
            rw [hlk] at hmatch
            have hylk : envLookup n' cur = some y := by
              rw [← envLookup_dictPop_other hn'k cur, hlk]
            rcases hedge with hedge | hedge
            · have hdone : n' ∈ done := by
                have hkeym : n' ∈ envKeys env := by
                  rw [← hkeys]
                  exact envLookup_isSome_iff.1 (by simp [hylk])
                have := hdep [] x rest rfl n' hedge hkeym
                simpa using this
              exact hprocessed n' y hdone hylk n hmatch hnkeys
            · exact hedge (by
                rw [← hkeys]
                exact envLookup_isSome_iff.1 (by simp [hylk]))
    have := ih (done ++ [k]) (formatKey cur k) hnd' hdep' hkeys' hwfv'
      huntouched' hprocessed'
    obtain ⟨c1, c2, c3, c4⟩ := this
    refine ⟨c1, c2, ?_, ?_⟩
    · intro x hx
      refine c3 x ?_
      simp only [List.mem_append, List.mem_singleton, List.mem_cons, not_or] at hx ⊢
      tauto
    · intro x w hx hw
      refine c4 x w ?_ hw
      simp only [List.mem_append, List.mem_singleton, List.mem_cons] at hx ⊢
      tauto

theorem valuePhase_spec {sep : Char} {env : Env}
    (hwf : envWF sep env) (hself : noSelfRef env)
    (hacyc : ¬ cycleExists (dependenciesOf env)) :
    envKeys (valuePhase env) = envKeys env ∧
    (∀ kv ∈ valuePhase env, WFStr sep kv.2) ∧
    (∀ x w, envLookup x (valuePhase env) = some w →
      ∀ n ∈ findPlaceholders w, n ∉ envKeys env) := by
  have hcy : (topological_sort (dependenciesOf env)).cyclic = [] :=
    cyclic_nil_of_acyclic hacyc
  have hvp : valuePhase env =
      formatPass env (topological_sort (dependenciesOf env)).sorted.reverse := by
    rw [valuePhase, hcy]
    rfl
  set order := (topological_sort (dependenciesOf env)).sorted.reverse with horder
  have hndorder : ([] ++ order).Nodup := by
    rw [List.nil_append, horder]
    exact List.nodup_reverse.2 (sorted_nodup _)
  have hdep : ∀ t1 k t2, order = t1 ++ k :: t2 →
      ∀ n, (k, n) ∈ dependenciesOf env → n ∈ envKeys env → n ∈ [] ++ t1 := by
    intro t1 k t2 hsp n hedge _
    rw [List.nil_append]
    have hsorted : (topological_sort (dependenciesOf env)).sorted =
        t2.reverse ++ k :: t1.reverse := by
      have : order.reverse = (t1 ++ k :: t2).reverse := by rw [hsp]
      rw [horder, List.reverse_reverse] at this
      rw [this]
      simp
    have hnmem : n ∈ (topological_sort (dependenciesOf env)).sorted :=
      node_mem_sorted hcy (Or.inr (by
        have := List.mem_map_of_mem Prod.snd hedge
        simpa using this))
    obtain ⟨u, v, hsp2⟩ := List.append_of_mem hnmem
    have hkin : k ∈ u := sorted_order (e := (k, n)) hedge hsp2
    have := mem_of_split_split' (sorted_nodup _) hsp2 hsorted hkin
    exact List.mem_reverse.1 this
  have hres := formatPass_resolve hwf hself order [] env hndorder hdep rfl
    (fun kv hkv => hwf.2.2 kv hkv) (fun x _ => rfl) (by simp)
  obtain ⟨c1, c2, c3, c4⟩ := hres
  rw [hvp]
  refine ⟨c1, c2, ?_⟩
  intro x w hw n hn
  by_cases hx : x ∈ order
  · exact c4 x w (by simpa using hx) hw n hn
  · have hlk : envLookup x env = some w := by rw [← c3 x (by simpa using hx), hw]
    have hxmem : (x, w) ∈ env := envLookup_mem hlk
    intro hnkeys
    have hnx : n ≠ x := by
      intro hh
      exact hself (x, w) hxmem (hh ▸ hn)
    have hedge : (x, n) ∈ dependenciesOf env :=
      mem_dependenciesOf.2 ⟨w, hxmem, hn, hnx⟩
    have hxs : x ∈ (topological_sort (dependenciesOf env)).sorted :=
      node_mem_sorted hcy (Or.inl (by
        have := List.mem_map_of_mem Prod.fst hedge
        simpa using this))
    exact hx (by
      rw [horder]
      exact List.mem_reverse.2 hxs)

theorem dynamicPhase_go_allow (env : Env) : ∀ (rest acc : Env),
    dynamicPhase.go env true rest acc =
      .ok (rest.foldl (fun a kv => dictSet (pformat kv.1 env none) kv.2 a) acc) := by
  intro rest
  induction rest with
  | nil => intro acc; rfl
  | cons kv rest' ih =>
    intro acc
    obtain ⟨k, v⟩ := kv
    rw [dynamicPhase.go]
    by_cases hc : (envLookup (pformat k env none) acc).isSome
    · rw [if_pos hc, if_pos rfl, ih, List.foldl_cons]
    · rw [if_neg hc, ih, List.foldl_cons]

theorem dynamicPhase_allow (env : Env) :
    dynamicPhase env true =
      .ok (env.foldl (fun a kv => dictSet (pformat kv.1 env none) kv.2 a) []) := by
  rw [dynamicPhase, dynamicPhase_go_allow]

theorem dynamicPhase_go_error {env : Env} {allow : Bool} :
    ∀ {rest acc : Env} {e : BuildError},
    dynamicPhase.go env allow rest acc = .error e → ∃ nk k, e = .keyClash nk k := by
  intro rest
  induction rest with
  | nil =>
    intro acc e h
    rw [dynamicPhase.go] at h
    exact absurd h (by simp)
  | cons kv rest' ih =>
    intro acc e h
    obtain ⟨k, v⟩ := kv
    rw [dynamicPhase.go] at h
    by_cases hc : (envLookup (pformat k env none) acc).isSome
    · rw [if_pos hc] at h
      cases allow with
      | true =>
        rw [if_pos rfl] at h
        exact ih h
      | false =>
        rw [if_neg (by simp)] at h
        have : BuildError.keyClash (pformat k env none) k = e := by
          injection h
        exact ⟨_, _, this.symm⟩
    · rw [if_neg hc] at h
      exact ih h

theorem lookup_foldl_dictSet (f : Str × Str → Str) (nk : Str) :
    ∀ (l : List (Str × Str)) (acc : Env),
    envLookup nk (l.foldl (fun a kv => dictSet (f kv) kv.2 a) acc) =
      match (l.filter (fun kv => f kv = nk)).getLast? with
      | some kv => some kv.2
      | none => envLookup nk acc := by
  intro l
  induction l with
  | nil => intro acc; rfl
  | cons kv rest ih =>
    intro acc
    rw [List.foldl_cons, ih, List.filter_cons]
    by_cases hf : f kv = nk
    · rw [if_pos (by simp [hf])]
      cases hr : rest.filter (fun q => decide (f q = nk)) with
      | nil =>
        simp only [List.getLast?_nil, List.getLast?_singleton]
        rw [hf]
        exact envLookup_dictSet_self _ _ _
      | cons q0 r0 =>
        rw [List.getLast?_cons_cons]
        cases hq : (q0 :: r0).getLast? with
        | some q => rfl
        | none => simp at hq
    · rw [if_neg (by simp [hf])]
      cases hrest : (rest.filter (fun q => decide (f q = nk))).getLast? with
      | some q => rfl
      | none =>
        exact envLookup_dictSet_other (fun hh => hf hh.symm) acc

theorem build_cycle_raise {env : Env}
    (h : (topological_sort (dependenciesOf env)).cyclic ≠ [])
    (d ak cl : Bool) (sep : Char) :
    build env d false ak cl sep =
      .error (.cycle (topological_sort (dependenciesOf env)).cyclic) := by
  rw [build, if_pos ⟨h, rfl⟩]

theorem build_no_check {env : Env} {d ac ak cl : Bool} {sep : Char}
    (h : ¬ ((topological_sort (dependenciesOf env)).cyclic ≠ [] ∧ ac = false)) :
    build env d ac ak cl sep =
      (if d then dynamicPhase (valuePhase env) ak else .ok (valuePhase env)).map
        (fun e => if cl then cleanupPass sep e else e) := by
  rw [build, if_neg h]

theorem build_no_cycle_error {env : Env} {d ak cl : Bool} {sep : Char}
    {e : BuildError} (h : build env d true ak cl sep = .error e) :
    ∃ nk k, e = .keyClash nk k := by
  rw [build_no_check (by simp)] at h
  cases hd : d with
  | true =>
    rw [hd] at h
    simp only [if_pos rfl] at h
    cases hph : dynamicPhase (valuePhase env) ak with
    | error e' =>
      rw [hph] at h
      have : e' = e := by
        simp [Except.map] at h
        exact h
      rw [dynamicPhase] at hph
      obtain ⟨nk, k, hk⟩ := dynamicPhase_go_error hph
      exact ⟨nk, k, this ▸ hk⟩
    | ok v =>
      rw [hph] at h
      exact absurd h (by simp [Except.map])
  | false =>
    rw [hd] at h
    simp only [Bool.false_eq_true, if_false] at h
    exact absurd h (by simp [Except.map])

/-- The caller's dict object is untouched by `build`: the heap cell at the
input reference holds the same mapping after the call, and the call's result
agrees with the pure translation. -/
theorem hupd_same (h : Heap) (x : Nat) (d : Env) : hupd h x d x = d := by
  simp [hupd]

theorem hupd_other {x y : Nat} (hne : y ≠ x) (h : Heap) (d : Env) :
    hupd h x d y = h y := by
  simp [hupd, hne]

theorem buildH_frame (h : Heap) (r : Nat)
    (dynamic_keys allow_cycle allow_key_clash cleanup_flag : Bool) (sep : Char) :
    (buildH h r dynamic_keys allow_cycle allow_key_clash cleanup_flag sep).1 r = h r ∧
    (buildH h r dynamic_keys allow_cycle allow_key_clash cleanup_flag sep).2 =
      build (h r) dynamic_keys allow_cycle allow_key_clash cleanup_flag sep := by
  have hr1 : r ≠ r + 1 := by omega
  have hr2 : r ≠ r + 2 := by omega
  have h12 : r + 1 ≠ r + 2 := by omega
  have h21 : r + 2 ≠ r + 1 := by omega
  rw [buildH, build]
  dsimp only
  simp only [hupd_same, hupd_other hr1, hupd_other hr2, hupd_other h21]
  by_cases hcy : (topological_sort (dependenciesOf (h r))).cyclic ≠ [] ∧
      allow_cycle = false
  · rw [if_pos hcy, if_pos hcy]
    exact ⟨by simp [hupd_other hr1], rfl⟩
  · rw [if_neg hcy, if_neg hcy]
    cases hd : dynamic_keys with
    | true =>
      simp only [if_pos rfl]
      rw [show valuePhase (h r) = formatPass
        (formatPass (h r) (topological_sort (dependenciesOf (h r))).sorted.reverse)
        (topological_sort (dependenciesOf (h r))).cyclic from rfl]
      cases hph : dynamicPhase (formatPass
          (formatPass (h r) (topological_sort (dependenciesOf (h r))).sorted.reverse)
          (topological_sort (dependenciesOf (h r))).cyclic) allow_key_clash with
      | error e =>
        constructor
        · simp [hupd_other hr1]
        · simp [Except.map]
      | ok fenv =>
        cases hcl : cleanup_flag with
        | true =>
          simp only [if_pos rfl]
          constructor
          · simp [hupd_other hr1, hupd_other hr2, hupd_same]
          · simp [hupd_same, hupd_other h21, Except.map]
        | false =>
          simp only [Bool.false_eq_true, if_false]
          constructor
          · simp [hupd_other hr1, hupd_other hr2, hupd_same]
          · simp [hupd_same, hupd_other h21, Except.map]
    | false =>
      simp only [Bool.false_eq_true, if_false]
      rw [show valuePhase (h r) = formatPass
        (formatPass (h r) (topological_sort (dependenciesOf (h r))).sorted.reverse)
        (topological_sort (dependenciesOf (h r))).cyclic from rfl]
      cases hcl : cleanup_flag with
      | true =>
        simp only [if_pos rfl]
        constructor
        · simp [hupd_other hr1, hupd_same]
        · simp [hupd_same, Except.map]
      | false =>
        simp only [Bool.false_eq_true, if_false]
        constructor
        · simp [hupd_other hr1, hupd_same]
        · simp [hupd_same, Except.map]

/-! ## Helper lemmas for the claim theorems -/

theorem wfChkF_sound {sep : Char} : ∀ (fuel : Nat) (s : Str),
    wfChkF sep fuel s = true → WFStr sep s := by
  intro fuel
  induction fuel with
  | zero =>
    intro s h
    cases s with
    | nil => exact .nil
    | cons c r => simp [wfChkF] at h
  | succ f ih =>
    intro s h
    cases s with
    | nil => exact .nil
    | cons c rest =>
      by_cases hc : c = '{'
      · subst hc
        cases hsc : scanPH rest with
        | none =>
          rw [wfChkF, if_pos rfl, hsc] at h
          exact absurd h (by simp)
        | some nr =>
          obtain ⟨n, r⟩ := nr
          rw [wfChkF, if_pos rfl, hsc] at h
          simp only [Bool.and_eq_true, decide_eq_true_eq] at h
          obtain ⟨hn, hr⟩ := h
          obtain ⟨hshape, -⟩ := scanPH_eq hsc
          rw [hshape]
          exact .ph hn (ih r hr)
      · rw [wfChkF, if_neg hc] at h
        exact .lit hc (ih rest h)

theorem WFStr_of_chk {sep : Char} {s : Str} (h : wfChk sep s = true) : WFStr sep s :=
  wfChkF_sound s.length s h

theorem envWF_of_chk {sep : Char} {env : Env}
    (h1 : (envKeys env).Nodup) (h2 : ∀ kv ∈ env, nameOK sep kv.1)
    (h3 : env.all (fun kv => wfChk sep kv.2) = true) : envWF sep env :=
  ⟨h1, h2, fun kv hkv => WFStr_of_chk (List.all_eq_true.1 h3 kv hkv)⟩

theorem nameOK_of_mem_fp {sep : Char} {s : Str} (hw : WFStr sep s) :
    ∀ {n : Str}, n ∈ findPlaceholders s → nameOK sep n := by
  induction hw with
  | nil =>
    intro n hn
    rw [fp_nil] at hn
    exact absurd hn (List.not_mem_nil n)
  | lit hc _ ih =>
    intro n hn
    rw [fp_cons hc] at hn
    exact ih hn
  | ph hn _ ih =>
    rename_i m s' _
    intro n hmem
    rw [fp_ph _ hn] at hmem
    rcases List.mem_cons.1 hmem with h | h
    · exact h ▸ hn
    · exact ih h

theorem formatPass_keys : ∀ (ks : List Str) (cur : Env),
    envKeys (formatPass cur ks) = envKeys cur := by
  intro ks
  induction ks with
  | nil => intro cur; rfl
  | cons k r ih =>
    intro cur
    have h : formatPass cur (k :: r) = formatPass (formatKey cur k) r := by
      rw [formatPass, List.foldl_cons]
      rfl
    rw [h, ih, formatKey_keys]

theorem valuePhase_keys (env : Env) : envKeys (valuePhase env) = envKeys env := by
  have h : valuePhase env = formatPass (formatPass env
      (topological_sort (dependenciesOf env)).sorted.reverse)
      (topological_sort (dependenciesOf env)).cyclic := rfl
  rw [h, formatPass_keys, formatPass_keys]

theorem valuePhase_dynId {sep : Char} {env : Env} (hnd : (envKeys env).Nodup)
    (hnames : ∀ kv ∈ env, nameOK sep kv.1) (allow : Bool) :
    dynamicPhase (valuePhase env) allow = .ok (valuePhase env) := by
  have hk := valuePhase_keys env
  have h2 : ∀ kv ∈ valuePhase env, nameOK sep kv.1 := by
    intro kv hkv
    have hmem : kv.1 ∈ envKeys env := by
      rw [← hk]
      exact List.mem_map_of_mem Prod.fst hkv
    obtain ⟨kv', hkv', hfst⟩ := List.mem_map.1 hmem
    exact hfst ▸ hnames kv' hkv'
  exact dynamicPhase_id (by rw [hk]; exact hnd) h2 allow

theorem build_ok_shape {sep : Char} {env : Env}
    (hnd : (envKeys env).Nodup) (hnames : ∀ kv ∈ env, nameOK sep kv.1)
    {d ac ak cl : Bool} {res : Env}
    (hres : build env d ac ak cl sep = .ok res) :
    res = if cl then cleanupPass sep (valuePhase env) else valuePhase env := by
  by_cases hcy : (topological_sort (dependenciesOf env)).cyclic ≠ [] ∧ ac = false
  · obtain ⟨hne, hac⟩ := hcy
    subst hac
    rw [build_cycle_raise hne d ak cl sep] at hres
    exact absurd hres (by simp)
  · rw [build_no_check hcy] at hres
    have hdyn : (if d then dynamicPhase (valuePhase env) ak
        else .ok (valuePhase env)) = .ok (valuePhase env) := by
      cases d with
      | true => rw [if_pos rfl]; exact valuePhase_dynId hnd hnames ak
      | false => rfl
    rw [hdyn] at hres
    simp only [Except.map, Except.ok.injEq] at hres
    exact hres.symm

theorem lookup_foldl_dictSet_nil (f : Str × Str → Str) (nk : Str)
    (l : List (Str × Str)) :
    envLookup nk (l.foldl (fun a kv => dictSet (f kv) kv.2 a) []) =
      ((l.filter (fun kv => f kv = nk)).getLast?).map Prod.snd := by
  rw [lookup_foldl_dictSet f nk l []]
  cases (l.filter (fun kv => f kv = nk)).getLast? with
  | some kv => rfl
  | none => rfl

theorem sep_not_mem_phStr {sep : Char} {b : Str} (hb : nameOK sep b)
    (hsep1 : sep ≠ '{') (hsep2 : sep ≠ '}') : sep ∉ phStr b := by
  intro hmem
  rw [phStr] at hmem
  rcases List.mem_cons.1 hmem with h | h
  · exact hsep1 h
  · rcases List.mem_append.1 h with h' | h'
    · exact ((hb.2 sep h').2.2.2) rfl
    · exact hsep2 (List.mem_singleton.1 h')

theorem track_valuePhase {sep : Char} {env : Env} {k v n : Str}
    (hnd : (envKeys env).Nodup) (hvals : ∀ kv ∈ env, WFStr sep kv.2)
    (hkv : (k, v) ∈ env) (hn : n ∈ findPlaceholders v)
    (hcond : n = k ∨ n ∉ envKeys env) :
    ∃ w, envLookup k (valuePhase env) = some w ∧ WFStr sep w ∧
      n ∈ findPlaceholders w := by
  have hstart : ∃ w, envLookup k env = some w ∧ WFStr sep w ∧
      ∀ m ∈ findPlaceholders v, (m = k ∨ m ∉ envKeys env) →
        m ∈ findPlaceholders w :=
    ⟨v, envLookup_of_mem_nodup hnd hkv, hvals _ hkv, fun m hm _ => hm⟩
  have h1 := formatPass_track hnd
    (topological_sort (dependenciesOf env)).sorted.reverse env rfl hvals hstart
  have h2 := formatPass_track hnd
    (topological_sort (dependenciesOf env)).cyclic _ h1.1 h1.2.1 h1.2.2
  obtain ⟨w, hw, hww, htrack⟩ := h2.2.2
  exact ⟨w, hw, hww, htrack n hn hcond⟩

/-! ## The claim theorems -/

/-- C6: `build` never mutates the caller's input mapping.  In the heap model
of Python dict objects, the cell holding the caller's dict is unchanged by
the call for every flag combination and outcome, and the call's result
agrees with the pure translation of `build`. -/
theorem c6_no_input_mutation (h : Heap) (r : Nat)
    (dynamic_keys allow_cycle allow_key_clash cleanup_flag : Bool) (sep : Char) :
    (buildH h r dynamic_keys allow_cycle allow_key_clash cleanup_flag sep).1 r = h r ∧
    (buildH h r dynamic_keys allow_cycle allow_key_clash cleanup_flag sep).2 =
      build (h r) dynamic_keys allow_cycle allow_key_clash cleanup_flag sep :=
  buildH_frame h r dynamic_keys allow_cycle allow_key_clash cleanup_flag sep

/-- C7: path normalization (split on the separator, order-preserving
de-duplication, drop blank segments, rejoin) is idempotent on every string
and every separator. -/
theorem c7_normalize_idempotent (sep : Char) (v : Str) :
    cleanupValue sep (cleanupValue sep v) = cleanupValue sep v :=
  cleanupValue_idem sep v

/-- C9: `build` is deterministic: two calls with identical input
environments (same pairs in the same insertion order) and identical flags
return identical results. -/
theorem c9_deterministic (env₁ env₂ : Env)
    (dynamic_keys allow_cycle allow_key_clash cleanup_flag : Bool) (sep : Char)
    (h : env₁ = env₂) :
    build env₁ dynamic_keys allow_cycle allow_key_clash cleanup_flag sep =
      build env₂ dynamic_keys allow_cycle allow_key_clash cleanup_flag sep := by
  rw [h]

/-- C9 witness: the determinism theorem applied at a concrete input. -/
theorem c9_deterministic_witness :
    build [(str "A", str "{B}x")] true false false true ';' =
      build [(str "A", str "{B}x")] true false false true ';' :=
  c9_deterministic [(str "A", str "{B}x")] [(str "A", str "{B}x")]
    true false false true ';' rfl

/-- C10: `prepare` joins list values with the literal `";"` and `join`
splits each value of its second environment on the literal `";"` (whatever
string is used to append the split segments), while the cleanup step of
`build` splits on the platform path separator: with separator `':'` a value
joined with `";"` is not split at the semicolons, whereas separator `';'`
does split (and de-duplicate) there. -/
theorem c10_join_literal_semicolon :
    prepare [(str "V", RawVal.flat (FlatVal.lst [str "p", str "q"]))] (str "linux") =
      .ok [(str "V", str "p;q")] ∧
    (∀ appendSep : Str, join [] [(str "V", str "p;q")] appendSep =
      [(str "V", str "p" ++ appendSep ++ str "q")]) ∧
    cleanupValue ':' (str "p;q") = str "p;q" ∧
    cleanupValue ';' (str "p;p;") = str "p" := by
  refine ⟨by decide, ?_, by decide, by decide⟩
  intro appendSep
  rfl

/-- C1 (amended): when dynamic-key resolution produces a name collision and
`allow_key_clash` is enabled, `build` completes, and the returned
environment maps every resolved name to the cleanup of the value of the
LAST (latest, in insertion order) source pair that produced it — the code's
`formatted[new_key] = value` overwrites on a clash, so the earlier value is
the one discarded, not the later one. -/
theorem c1_key_clash_last_wins (env : Env) (sep : Char) (ac : Bool)
    (hclash : ¬ (resolvedKeys (valuePhase env)).Nodup)
    (hnc : ¬ ((topological_sort (dependenciesOf env)).cyclic ≠ [] ∧ ac = false)) :
    ∃ res, build env true ac true true sep = .ok res ∧
      ∀ nk, envLookup nk res =
        (lastClashValue nk (valuePhase env)).map (cleanupValue sep) := by
  rw [build_no_check hnc, if_pos rfl, dynamicPhase_allow]
  refine ⟨_, rfl, ?_⟩
  intro nk
  show envLookup nk (cleanupPass sep ((valuePhase env).foldl
      (fun a kv => dictSet (pformat kv.1 (valuePhase env) none) kv.2 a) [])) =
    (lastClashValue nk (valuePhase env)).map (cleanupValue sep)
  rw [cleanupPass_lookup,
    lookup_foldl_dictSet_nil (fun kv => pformat kv.1 (valuePhase env) none) nk
      (valuePhase env),
    lastClashValue]

/-- C1 witness: the amended clash theorem applied at a concrete colliding
environment (both `{A}` and `{B}` resolve to `X`). -/
theorem c1_key_clash_last_wins_witness :
    ∃ res, build [(str "{A}", str "1"), (str "{B}", str "2"),
        (str "A", str "X"), (str "B", str "X")] true false true true ';' = .ok res ∧
      ∀ nk, envLookup nk res =
        (lastClashValue nk (valuePhase [(str "{A}", str "1"), (str "{B}", str "2"),
          (str "A", str "X"), (str "B", str "X")])).map (cleanupValue ';') :=
  c1_key_clash_last_wins [(str "{A}", str "1"), (str "{B}", str "2"),
    (str "A", str "X"), (str "B", str "X")] ';' false (by decide) (by decide)

/-- C1 counterexample to the frozen claim: the keys `{A}` (value `1`, the
earlier pair) and `{B}` (value `2`, the later pair) both resolve to `X`;
with `allow_key_clash` the output maps `X` to `2`, the LATER pair's value,
so the earlier value is the one discarded. -/
theorem c1_counterexample :
    build [(str "{A}", str "1"), (str "{B}", str "2"),
        (str "A", str "X"), (str "B", str "X")] true false true true ';' =
      .ok [(str "X", str "2"), (str "A", str "X"), (str "B", str "X")] ∧
    pformat (str "{A}") (valuePhase [(str "{A}", str "1"), (str "{B}", str "2"),
      (str "A", str "X"), (str "B", str "X")]) none = str "X" ∧
    pformat (str "{B}") (valuePhase [(str "{A}", str "1"), (str "{B}", str "2"),
      (str "A", str "X"), (str "B", str "X")]) none = str "X" ∧
    envLookup (str "X") [(str "X", str "2"), (str "A", str "X"), (str "B", str "X")] =
      some (str "2") ∧
    str "2" ≠ str "1" := by
  decide

/-- C2 (amended): on an acyclic dependency graph, with well-formed distinct
keys and template values, NO direct self-references anywhere, and a
separator that is not a brace, `build` completes and every placeholder
whose referenced key exists in the input is fully substituted: if `a` is a
key and `b` an existing key, the resolved value of `a` contains no literal
occurrence of the placeholder of `b`.  The frozen claim omits the
no-self-reference condition: a self-referential placeholder is skipped when
edges are collected, survives resolution by design, and can then be copied
into the values of dependent keys (see the counterexample). -/
theorem c2_acyclic_full_substitution {sep : Char} {env : Env} {a va b : Str}
    (hwf : envWF sep env) (hself : noSelfRef env)
    (hacyc : ¬ cycleExists (dependenciesOf env))
    (hsep1 : sep ≠ '{') (hsep2 : sep ≠ '}')
    (ha : (a, va) ∈ env) (hdep : dependsOn env a b)
    (hb : b ∈ envKeys env) (hext : noExternalDep env b)
    (d ac ak cl : Bool) :
    ∃ res w, build env d ac ak cl sep = .ok res ∧
      envLookup a res = some w ∧ ¬ occursIn (phStr b) w := by
  obtain ⟨hvk, hwfv, hresolve⟩ := valuePhase_spec hwf hself hacyc
  have hamem : a ∈ envKeys (valuePhase env) := by
    rw [hvk]
    exact List.mem_map_of_mem Prod.fst ha
  obtain ⟨w, hw⟩ := Option.isSome_iff_exists.1 (envLookup_isSome_iff.2 hamem)
  have hbOK : nameOK sep b := by
    obtain ⟨kv, hkv, hfst⟩ := List.mem_map.1 hb
    exact hfst ▸ hwf.2.1 kv hkv
  have hwfw : WFStr sep w := hwfv _ (envLookup_mem hw)
  have hnotocc : ¬ occursIn (phStr b) w := fun hocc =>
    hresolve a w hw b ((occursIn_phStr_iff hwfw hbOK).1 hocc) hb
  have hcyc0 : (topological_sort (dependenciesOf env)).cyclic = [] :=
    cyclic_nil_of_acyclic hacyc
  rw [build_no_check (fun hcc => hcc.1 hcyc0)]
  have hdyn : (if d then dynamicPhase (valuePhase env) ak
      else .ok (valuePhase env)) = .ok (valuePhase env) := by
    cases d with
    | true => rw [if_pos rfl]; exact valuePhase_dynId hwf.1 hwf.2.1 ak
    | false => rfl
  rw [hdyn]
  cases cl with
  | true =>
    refine ⟨cleanupPass sep (valuePhase env), cleanupValue sep w, rfl, ?_, ?_⟩
    · rw [cleanupPass_lookup, hw]
      rfl
    · intro hocc
      exact hnotocc (occursIn_of_cleanup (by simp [phStr])
        (sep_not_mem_phStr hbOK hsep1 hsep2) hocc)
  | false =>
    exact ⟨valuePhase env, w, rfl, hw, hnotocc⟩

/-- C2 witness: the amended theorem applied at a concrete acyclic
environment with no self-references. -/
theorem c2_acyclic_full_substitution_witness :
    ∃ res w, build [(str "a", str "{b}"), (str "b", str "x")]
        true false false true ';' = .ok res ∧
      envLookup (str "a") res = some w ∧ ¬ occursIn (phStr (str "b")) w := by
  refine c2_acyclic_full_substitution
    (envWF_of_chk (by decide) (by decide) (by decide)) (by decide)
    (acyclic_of_cyclic_nil (by decide)) (by decide) (by decide)
    (by decide : (str "a", str "{b}") ∈ [(str "a", str "{b}"), (str "b", str "x")])
    (Relation.TransGen.single
      (by decide : (str "a", str "b") ∈ dependenciesOf
        [(str "a", str "{b}"), (str "b", str "x")]))
    (by decide) ?_ true false false true
  intro c hc
  exfalso
  obtain ⟨x, hx, -⟩ := Relation.TransGen.head'_iff.1 hc
  have hd : dependenciesOf [(str "a", str "{b}"), (str "b", str "x")] =
      [(str "a", str "b")] := by decide
  rw [hd] at hx
  have hx' : (str "b", x) ∈ [(str "a", str "b")] := hx
  have hfst : str "b" = str "a" := congrArg Prod.fst (List.mem_singleton.1 hx')
  exact absurd hfst (by decide)

/-- C2 counterexample to the frozen claim: the graph of
`a = "{b}", b = "x{b}"` is acyclic (the self-reference of `b` is skipped
when edges are collected), `a` depends on `b`, `b` exists in the input and
has no unresolved external dependency, yet after `build` the value of `a`
is `x{b}`, which still contains the literal placeholder of `b`. -/
theorem c2_counterexample :
    (¬ cycleExists (dependenciesOf [(str "a", str "{b}"), (str "b", str "x{b}")])) ∧
    dependsOn [(str "a", str "{b}"), (str "b", str "x{b}")] (str "a") (str "b") ∧
    str "b" ∈ envKeys [(str "a", str "{b}"), (str "b", str "x{b}")] ∧
    noExternalDep [(str "a", str "{b}"), (str "b", str "x{b}")] (str "b") ∧
    build [(str "a", str "{b}"), (str "b", str "x{b}")] true false false true ';' =
      .ok [(str "a", str "x{b}"), (str "b", str "x{b}")] ∧
    occursIn (phStr (str "b")) (str "x{b}") := by
  refine ⟨acyclic_of_cyclic_nil (by decide),
    Relation.TransGen.single
      (by decide : (str "a", str "b") ∈ dependenciesOf
        [(str "a", str "{b}"), (str "b", str "x{b}")]),
    by decide, ?_, by decide, by decide⟩
  intro c hc
  exfalso
  obtain ⟨x, hx, -⟩ := Relation.TransGen.head'_iff.1 hc
  have hd : dependenciesOf [(str "a", str "{b}"), (str "b", str "x{b}")] =
      [(str "a", str "b")] := by decide
  rw [hd] at hx
  have hx' : (str "b", x) ∈ [(str "a", str "b")] := hx
  have hfst : str "b" = str "a" := congrArg Prod.fst (List.mem_singleton.1 hx')
  exact absurd hfst (by decide)

/-- C3 (amended): with a cyclic dependency graph and `allow_cycle` disabled,
`build` raises `CycleError` carrying the (non-empty) cyclic node set, and on
the `A = "{B}", B = "{A}"` example both `A` and `B` are reported.  With
`allow_cycle` enabled the cycle check never raises — `build` completes
whenever key clashes cannot be raised (`allow_key_clash` on, as in the last
two conjuncts), and any error it can still raise is a key clash, NOT a
`CycleError`; the frozen claim's unconditional "completes without raising"
is refuted by the counterexample. -/
theorem c3_cycle_detection :
    (∀ (env : Env) (d ak cl : Bool) (sep : Char),
        cycleExists (dependenciesOf env) →
        (topological_sort (dependenciesOf env)).cyclic ≠ [] ∧
        build env d false ak cl sep =
          .error (.cycle (topological_sort (dependenciesOf env)).cyclic)) ∧
    build [(str "A", str "{B}"), (str "B", str "{A}")] true false false true ';' =
      .error (.cycle [str "B", str "A"]) ∧
    str "A" ∈ [str "B", str "A"] ∧ str "B" ∈ [str "B", str "A"] ∧
    (∀ (env : Env) (d cl : Bool) (sep : Char),
        ∃ res, build env d true true cl sep = .ok res) ∧
    (∀ (env : Env) (d ak cl : Bool) (sep : Char) (e : BuildError),
        build env d true ak cl sep = .error e → ∃ nk k, e = .keyClash nk k) := by
  refine ⟨?_, by decide, by decide, by decide, ?_, ?_⟩
  · intro env d ak cl sep hcyc
    have hne : (topological_sort (dependenciesOf env)).cyclic ≠ [] := by
      intro hnil
      exact acyclic_of_cyclic_nil hnil hcyc
    exact ⟨hne, build_cycle_raise hne d ak cl sep⟩
  · intro env d cl sep
    rw [build_no_check (by simp)]
    cases d with
    | true =>
      rw [if_pos rfl, dynamicPhase_allow]
      exact ⟨_, rfl⟩
    | false => exact ⟨_, rfl⟩
  · intro env d ak cl sep e h
    exact build_no_cycle_error h

/-- C3 witness: the cycle branch applied at the `A = "{B}", B = "{A}"`
example (discharging the cycle-existence hypothesis by exhibiting the
two-step cycle `A → B → A`), and the completion branch at the same input. -/
theorem c3_cycle_detection_witness :
    ((topological_sort (dependenciesOf
        [(str "A", str "{B}"), (str "B", str "{A}")])).cyclic ≠ [] ∧
      build [(str "A", str "{B}"), (str "B", str "{A}")] true false false true ';' =
        .error (.cycle (topological_sort (dependenciesOf
          [(str "A", str "{B}"), (str "B", str "{A}")])).cyclic)) ∧
    ∃ res, build [(str "A", str "{B}"), (str "B", str "{A}")]
        true true true true ';' = .ok res := by
  constructor
  · refine c3_cycle_detection.1 _ true false true ';' ⟨str "A", ?_⟩
    exact Relation.TransGen.head (b := str "B")
      (by decide : (str "A", str "B") ∈ dependenciesOf
        [(str "A", str "{B}"), (str "B", str "{A}")])
      (Relation.TransGen.single
        (by decide : (str "B", str "A") ∈ dependenciesOf
          [(str "A", str "{B}"), (str "B", str "{A}")]))
  · exact c3_cycle_detection.2.2.2.2.1 _ true true ';'

/-- C3 counterexample to the frozen claim's tolerance half: a cyclic
environment (`A` and `B` reference each other) built with `allow_cycle`
enabled does NOT always complete — the dynamic-key pass still raises
`DynamicKeyClashError` when two keys resolve to the same name (`{D}`
resolves to `C`, which clashes with the key `C`). -/
theorem c3_counterexample :
    build [(str "A", str "{B}"), (str "B", str "{A}"), (str "C", str "1"),
        (str "{D}", str "2"), (str "D", str "C")] true true false true ';' =
      .error (.keyClash (str "C") (str "{D}")) := by
  decide

/-- C4: a template value that references its key's own name keeps that
self-referencing placeholder intact in `build`'s output, whatever the flag
settings (in particular `allow_cycle`), and no self-edge is recorded in the
dependency list.  Stated for well-formed environments and a separator that
is not a brace (so the placeholder text cannot be cut by the cleanup
split). -/
theorem c4_self_reference_intact {sep : Char} {env : Env} {k v : Str}
    (hwf : envWF sep env) (hkv : (k, v) ∈ env) (hk : k ∈ findPlaceholders v)
    (hsep1 : sep ≠ '{') (hsep2 : sep ≠ '}')
    (d ac ak cl : Bool) (res : Env)
    (hres : build env d ac ak cl sep = .ok res) :
    (k, k) ∉ dependenciesOf env ∧
    ∃ v', envLookup k res = some v' ∧ occursIn (phStr k) v' := by
  obtain ⟨hnd, hnames, hvals⟩ := hwf
  refine ⟨no_self_edge env k, ?_⟩
  obtain ⟨w, hw, hww, hkw⟩ := track_valuePhase hnd hvals hkv hk (Or.inl rfl)
  have hkOK : nameOK sep k := hnames _ hkv
  have hocc : occursIn (phStr k) w := (occursIn_phStr_iff hww hkOK).2 hkw
  have hres' := build_ok_shape hnd hnames hres
  cases cl with
  | true =>
    rw [if_pos rfl] at hres'
    refine ⟨cleanupValue sep w, ?_, ?_⟩
    · rw [hres', cleanupPass_lookup, hw]
      rfl
    · exact occursIn_cleanup_of_occursIn (by simp [phStr])
        (sep_not_mem_phStr hkOK hsep1 hsep2)
        ⟨'{', by simp [phStr], by decide⟩ hocc
  | false =>
    simp only [Bool.false_eq_true, if_false] at hres'
    exact ⟨w, by rw [hres']; exact hw, hocc⟩

/-- C4 witness: the self-reference theorem applied at the spec's example
`A = "prefix-{A}-suffix"`, whose build output keeps the value unchanged. -/
theorem c4_self_reference_intact_witness :
    (str "A", str "A") ∉ dependenciesOf [(str "A", str "prefix-{A}-suffix")] ∧
    ∃ v', envLookup (str "A") [(str "A", str "prefix-{A}-suffix")] = some v' ∧
      occursIn (phStr (str "A")) v' :=
  @c4_self_reference_intact ';' [(str "A", str "prefix-{A}-suffix")]
    (str "A") (str "prefix-{A}-suffix")
    (envWF_of_chk (by decide) (by decide) (by decide))
    (by decide) (by decide) (by decide) (by decide) true false false true
    [(str "A", str "prefix-{A}-suffix")] (by decide)

/-- C5: a placeholder whose name is absent from the environment is left
verbatim (braces included) in the output value of its key, whatever the
flag settings.  Stated for well-formed environments and a separator that is
not a brace. -/
theorem c5_missing_key_verbatim {sep : Char} {env : Env} {k v n : Str}
    (hwf : envWF sep env) (hkv : (k, v) ∈ env) (hn : n ∈ findPlaceholders v)
    (habs : n ∉ envKeys env) (hsep1 : sep ≠ '{') (hsep2 : sep ≠ '}')
    (d ac ak cl : Bool) (res : Env)
    (hres : build env d ac ak cl sep = .ok res) :
    ∃ v', envLookup k res = some v' ∧ occursIn (phStr n) v' := by
  obtain ⟨hnd, hnames, hvals⟩ := hwf
  obtain ⟨w, hw, hww, hnw⟩ := track_valuePhase hnd hvals hkv hn (Or.inr habs)
  have hnOK : nameOK sep n := nameOK_of_mem_fp (hvals _ hkv) hn
  have hocc : occursIn (phStr n) w := (occursIn_phStr_iff hww hnOK).2 hnw
  have hres' := build_ok_shape hnd hnames hres
  cases cl with
  | true =>
    rw [if_pos rfl] at hres'
    refine ⟨cleanupValue sep w, ?_, ?_⟩
    · rw [hres', cleanupPass_lookup, hw]
      rfl
    · exact occursIn_cleanup_of_occursIn (by simp [phStr])
        (sep_not_mem_phStr hnOK hsep1 hsep2)
        ⟨'{', by simp [phStr], by decide⟩ hocc
  | false =>
    simp only [Bool.false_eq_true, if_false] at hres'
    exact ⟨w, by rw [hres']; exact hw, hocc⟩

/-- C5 witness: the missing-key theorem applied at the docstring's example
`A = "{key}"` with `key` absent from the environment. -/
theorem c5_missing_key_verbatim_witness :
    ∃ v', envLookup (str "A") [(str "A", str "{key}")] = some v' ∧
      occursIn (phStr (str "key")) v' :=
  @c5_missing_key_verbatim ';' [(str "A", str "{key}")]
    (str "A") (str "{key}") (str "key")
    (envWF_of_chk (by decide) (by decide) (by decide))
    (by decide) (by decide) (by decide) (by decide) (by decide)
    true false false true [(str "A", str "{key}")] (by decide)

/-- C8: path normalization keeps the first occurrence of each segment in
order and drops blank segments — `X<sep>Y<sep>X` normalizes to `X<sep>Y`
for any two distinct separator-free non-blank segments — and the spec's
end-to-end example resolves as stated, dropping the duplicate and the
trailing empty segment of `LIB`. -/
theorem c8_dedup_order {sep : Char} {X Y : Str}
    (hsx : sep ∉ X) (hsy : sep ∉ Y) (hxy : X ≠ Y)
    (hbx : isBlankSeg X = false) (hby : isBlankSeg Y = false) :
    cleanupValue sep (X ++ sep :: (Y ++ sep :: X)) = X ++ sep :: Y ∧
    build [(str "ROOT", str "/tools"), (str "BIN", str "{ROOT}/bin"),
        (str "LIB", str "{ROOT}/lib;{ROOT}/lib;")] true false false true ';' =
      .ok [(str "ROOT", str "/tools"), (str "BIN", str "/tools/bin"),
        (str "LIB", str "/tools/lib")] := by
  refine ⟨?_, by decide⟩
  have hsplit : splitOnChar sep (X ++ sep :: (Y ++ sep :: X)) = [X, Y, X] := by
    rw [splitOnChar_append_sep _ hsx, splitOnChar_append_sep _ hsy,
      splitOnChar_of_not_mem hsx]
  have huniq : uniqify_ordered [X, Y, X] = [X, Y] := by
    rw [uniqify_ordered, uniqAux, if_neg (List.not_mem_nil X)]
    rw [uniqAux, if_neg (by simp [Ne.symm hxy])]
    rw [uniqAux, if_pos (by simp)]
    rfl
  rw [cleanupValue, hsplit, huniq]
  simp only [List.filter_cons, List.filter_nil, hbx, hby, Bool.not_false,
    if_true]
  rw [joinChar_cons sep X (List.cons_ne_nil Y [])]
  rfl

/-- C8 witness: the de-duplication equation applied at concrete segments
`X`, `Y` with separator `';'`. -/
theorem c8_dedup_order_witness :
    cleanupValue ';' (str "X" ++ ';' :: (str "Y" ++ ';' :: str "X")) =
      str "X" ++ ';' :: str "Y" ∧
    build [(str "ROOT", str "/tools"), (str "BIN", str "{ROOT}/bin"),
        (str "LIB", str "{ROOT}/lib;{ROOT}/lib;")] true false false true ';' =
      .ok [(str "ROOT", str "/tools"), (str "BIN", str "/tools/bin"),
        (str "LIB", str "/tools/lib")] :=
  c8_dedup_order (by decide) (by decide) (by decide) (by decide) (by decide)

end Acre
